import Mathlib

/-!
Verification of the jman JSON-manipulation library (jman.go, jfile.go).

The development shallowly embeds the library's data model and operations:

* `Node` models the Go `Node` struct, i.e. the dynamic value stored in its
  `data interface\x7b\x7d` field.  The values reachable in this library are those
  produced by `encoding/json` decoding with `UseNumber()` (nil, bool, string,
  `json.Number`, `[]interface\x7b\x7d`, `map[string]interface\x7b\x7d`) together with the
  strings stored by `JFile.SetString` and the values stored by `SetPath`.
  A JSON number is kept as its original text (`json.Number`), and the Go nil
  interface (both the decoded JSON `null` and the designated "nil node"
  `&Node\x7bnil\x7d` returned by failed `Get`) is `Node.null`.
* Go maps are unordered with unique keys; `encoding/json` serializes them with
  keys sorted bytewise.  The embedding represents `map[string]interface\x7b\x7d` as
  an association list kept sorted by `keyLt` (bytewise/codepoint order, which
  agrees with UTF-8 byte order) with no duplicate keys, and every map write
  goes through `mapSet`.  All observations the library makes of a map (lookup,
  deletion, sorted serialization) agree with this representation.
* The platform JSON codec (`encoding/json` with `UseNumber`) is modelled by
  `pVal` (decoder) and `Node.Encode` / `Node.EncodePretty` (encoder), at the
  granularity of Unicode scalar values (`Char`).  The decoder reads one value
  and ignores trailing input, as `json.Decoder.Decode` does for the inputs the
  library produces.
* Go panics (out-of-range slice index) are modelled by `Except GoPanic`;
  Go `error` values are modelled by the inductive `GoErr`, with
  `GoErr.specificNode` playing the role of the `ErrSpecificNode` sentinel that
  callers compare against.
-/

/-- Dynamic JSON value: the universe of values stored in a Go `Node`. -/
inductive Node where
  | null
  | bool (b : Bool)
  | str (s : String)
  | num (s : String)
  | arr (elems : List Node)
  | obj (entries : List (String × Node))

mutual
/-- Structural equality test for `Node` (decidable equality working around the
nested inductive). -/
def Node.beq : Node → Node → Bool
  | .null, .null => true
  | .bool a, .bool b => a == b
  | .str a, .str b => a == b
  | .num a, .num b => a == b
  | .arr a, .arr b => Node.beqList a b
  | .obj a, .obj b => Node.beqFields a b
  | _, _ => false
def Node.beqList : List Node → List Node → Bool
  | [], [] => true
  | x :: xs, y :: ys => Node.beq x y && Node.beqList xs ys
  | _, _ => false
def Node.beqFields : List (String × Node) → List (String × Node) → Bool
  | [], [] => true
  | (k, v) :: xs, (l, w) :: ys => k == l && Node.beq v w && Node.beqFields xs ys
  | _, _ => false
end

mutual
theorem Node.beq_iff : ∀ a b : Node, Node.beq a b = true ↔ a = b
  | .null, .null => by simp [Node.beq]
  | .bool _, .bool _ => by simp [Node.beq]
  | .str _, .str _ => by simp [Node.beq]
  | .num _, .num _ => by simp [Node.beq]
  | .arr x, .arr y => by simp [Node.beq, Node.beqList_iff x y]
  | .obj x, .obj y => by simp [Node.beq, Node.beqFields_iff x y]
  | .null, .bool _ | .null, .str _ | .null, .num _ | .null, .arr _ | .null, .obj _
  | .bool _, .null | .bool _, .str _ | .bool _, .num _ | .bool _, .arr _ | .bool _, .obj _
  | .str _, .null | .str _, .bool _ | .str _, .num _ | .str _, .arr _ | .str _, .obj _
  | .num _, .null | .num _, .bool _ | .num _, .str _ | .num _, .arr _ | .num _, .obj _
  | .arr _, .null | .arr _, .bool _ | .arr _, .str _ | .arr _, .num _ | .arr _, .obj _
  | .obj _, .null | .obj _, .bool _ | .obj _, .str _ | .obj _, .num _ | .obj _, .arr _ => by
    simp [Node.beq]
theorem Node.beqList_iff : ∀ a b : List Node, Node.beqList a b = true ↔ a = b
  | [], [] => by simp [Node.beqList]
  | x :: xs, y :: ys => by simp [Node.beqList, Node.beq_iff x y, Node.beqList_iff xs ys]
  | [], _ :: _ => by simp [Node.beqList]
  | _ :: _, [] => by simp [Node.beqList]
theorem Node.beqFields_iff : ∀ a b : List (String × Node), Node.beqFields a b = true ↔ a = b
  | [], [] => by simp [Node.beqFields]
  | (k, v) :: xs, (l, w) :: ys => by
    simp [Node.beqFields, Node.beq_iff v w, Node.beqFields_iff xs ys, and_assoc]
  | [], _ :: _ => by simp [Node.beqFields]
  | _ :: _, [] => by simp [Node.beqFields]
end

instance : DecidableEq Node := fun a b => decidable_of_iff _ (Node.beq_iff a b)

/-- Go `error` values produced by the library, one constructor per distinct
error site (`ErrSpecificNode` is the sentinel compared by identity). -/
inductive GoErr where
  | specificNode
  | invalidIndex (tok : String)
  | couldNotFindIndex (tok : String)
  | leftUnparsed (rest : String)
  | couldNotLookup (path : String)
  | typeAssertionFailed (target : String)
  | invalidValueType
  | couldNotSet
  | pathToSingleKey
  | parseError
  | syntaxErr
  | rangeErr
deriving DecidableEq

/-- Go runtime panic (slice index out of range). -/
inductive GoPanic where
  | indexOutOfRange
deriving DecidableEq

deriving instance DecidableEq for Except

/-- Bytewise (codepoint) strict order on keys, the order in which
`encoding/json` serializes map keys.  UTF-8 byte order coincides with
codepoint order, so comparing `Char`s is faithful. -/
def keyLt : List Char → List Char → Bool
  | [], [] => false
  | [], _ :: _ => true
  | _ :: _, [] => false
  | a :: as, b :: bs => a.toNat < b.toNat || (a = b && keyLt as bs)

/-- Strict key order on `String`. -/
def strLt (a b : String) : Bool := keyLt a.data b.data

theorem keyLt_irrefl : ∀ a, keyLt a a = false
  | [] => rfl
  | c :: cs => by simp [keyLt, keyLt_irrefl cs]


theorem keyLt_asymm : ∀ a b, keyLt a b = true → keyLt b a = true → False
  | [], [], h, _ => by simp [keyLt] at h
  | [], _ :: _, _, h₂ => by simp [keyLt] at h₂
  | _ :: _, [], h, _ => by simp [keyLt] at h
  | a :: as, b :: bs, h₁, h₂ => by
    simp only [keyLt, Bool.or_eq_true, Bool.and_eq_true, decide_eq_true_eq] at h₁ h₂
    rcases h₁ with h₁ | ⟨rfl, h₁⟩ <;> rcases h₂ with h₂ | ⟨he, h₂⟩
    · omega
    · subst he; omega
    · omega
    · exact keyLt_asymm as bs h₁ h₂

theorem keyLt_ne : ∀ a b, keyLt a b = true → a ≠ b := by
  intro a b h he
  subst he
  rw [keyLt_irrefl] at h
  exact absurd h (by simp)

theorem keyLt_trans : ∀ a b c, keyLt a b = true → keyLt b c = true → keyLt a c = true
  | [], [], _, h, _ => by simp [keyLt] at h
  | [], _ :: _, [], _, h₂ => by simp [keyLt] at h₂
  | [], _ :: _, _ :: _, _, _ => rfl
  | _ :: _, [], _, h, _ => by simp [keyLt] at h
  | _ :: _, _ :: _, [], _, h₂ => by simp [keyLt] at h₂
  | a :: as, b :: bs, c :: cs, h₁, h₂ => by
    simp only [keyLt, Bool.or_eq_true, Bool.and_eq_true, decide_eq_true_eq] at h₁ h₂ ⊢
    rcases h₁ with h₁ | ⟨rfl, h₁⟩
    · rcases h₂ with h₂ | ⟨rfl, h₂⟩
      · exact Or.inl (Nat.lt_trans h₁ h₂)
      · exact Or.inl h₁
    · rcases h₂ with h₂ | ⟨rfl, h₂⟩
      · exact Or.inl h₂
      · exact Or.inr ⟨rfl, keyLt_trans as bs cs h₁ h₂⟩

theorem char_eq_of_toNat_eq {a b : Char} (h : a.toNat = b.toNat) : a = b := by
  have := congrArg Char.ofNat h
  rwa [Char.ofNat_toNat, Char.ofNat_toNat] at this

theorem keyLt_total : ∀ a b, keyLt a b = true ∨ a = b ∨ keyLt b a = true
  | [], [] => Or.inr (Or.inl rfl)
  | [], _ :: _ => Or.inl rfl
  | _ :: _, [] => Or.inr (Or.inr rfl)
  | a :: as, b :: bs => by
    rcases Nat.lt_trichotomy a.toNat b.toNat with h | h | h
    · exact Or.inl (by simp [keyLt, h])
    · have he : a = b := char_eq_of_toNat_eq h
      subst he
      rcases keyLt_total as bs with h' | h' | h'
      · exact Or.inl (by simp [keyLt, h'])
      · exact Or.inr (Or.inl (by rw [h']))
      · exact Or.inr (Or.inr (by simp [keyLt, h']))
    · exact Or.inr (Or.inr (by simp [keyLt, h]))

theorem strLt_total (a b : String) : strLt a b = true ∨ a = b ∨ strLt b a = true := by
  rcases keyLt_total a.data b.data with h | h | h
  · exact Or.inl h
  · exact Or.inr (Or.inl (by cases a; cases b; exact congrArg String.mk h))
  · exact Or.inr (Or.inr h)

theorem strLt_irrefl (a : String) : strLt a a = false := keyLt_irrefl a.data

theorem strLt_asymm {a b : String} (h₁ : strLt a b = true) (h₂ : strLt b a = true) : False :=
  keyLt_asymm _ _ h₁ h₂

theorem strLt_ne {a b : String} (h : strLt a b = true) : a ≠ b := by
  intro he; subst he; rw [strLt_irrefl] at h; exact absurd h (by simp)

theorem strLt_trans {a b c : String} (h₁ : strLt a b = true) (h₂ : strLt b c = true) :
    strLt a c = true := keyLt_trans _ _ _ h₁ h₂

/-- The entry order maintained in the association-list representation of Go
maps: keys strictly increasing in `strLt`. -/
def EntryLt (a b : String × Node) : Prop := strLt a.1 b.1 = true

instance : DecidablePred (fun p : (String × Node) × (String × Node) => EntryLt p.1 p.2) :=
  fun p => by unfold EntryLt; infer_instance

/-- Lookup in the association-list representation of `map[string]interface\x7b\x7d`. -/
def mapGet : List (String × Node) → String → Option Node
  | [], _ => none
  | (k, v) :: rest, key => if k = key then some v else mapGet rest key

/-- Map write `m[key] = v`: ordered insert that overwrites an existing key
(the representation keeps keys in `strLt` order). -/
def mapSet : List (String × Node) → String → Node → List (String × Node)
  | [], key, v => [(key, v)]
  | (k, w) :: rest, key, v =>
    if strLt key k then (key, v) :: (k, w) :: rest
    else if key = k then (key, v) :: rest
    else (k, w) :: mapSet rest key v

/-- Map delete `delete(m, key)`. -/
def mapDel : List (String × Node) → String → List (String × Node)
  | [], _ => []
  | (k, v) :: rest, key => if k = key then rest else (k, v) :: mapDel rest key

/-- Boolean check that adjacent keys strictly increase. -/
def sortedKeys : List (String × Node) → Bool
  | (k₁, _) :: (k₂, v₂) :: rest => strLt k₁ k₂ && sortedKeys ((k₂, v₂) :: rest)
  | _ => true

/-- Sortedness as a `Pairwise` statement. -/
def SortedK (m : List (String × Node)) : Prop := List.Pairwise EntryLt m

theorem sortedKeys_iff : ∀ {m : List (String × Node)}, sortedKeys m = true ↔ SortedK m := by
  intro m
  induction m with
  | nil => simp [sortedKeys, SortedK]
  | cons e rest ih =>
    obtain ⟨k, v⟩ := e
    cases rest with
    | nil => simp [sortedKeys, SortedK]
    | cons f fs =>
      obtain ⟨k', v'⟩ := f
      constructor
      · intro h
        simp only [sortedKeys, Bool.and_eq_true] at h
        have htail : SortedK ((k', v') :: fs) := ih.mp h.2
        refine List.Pairwise.cons ?_ htail
        intro e he
        rcases List.mem_cons.mp he with he | he
        · subst he; exact h.1
        · have := (List.pairwise_cons.mp htail).1 e he
          exact strLt_trans h.1 this
      · intro h
        have h' := List.pairwise_cons.mp h
        simp only [sortedKeys, Bool.and_eq_true]
        exact ⟨h'.1 (k', v') (by simp), ih.mpr h'.2⟩

theorem mapSet_mem {m : List (String × Node)} {key : String} {v : Node} :
    ∀ e ∈ mapSet m key v, e = (key, v) ∨ e ∈ m := by
  induction m with
  | nil => intro e he; simp [mapSet] at he; exact Or.inl he
  | cons f rest ih =>
    obtain ⟨k, w⟩ := f
    intro e he
    by_cases h₁ : strLt key k
    · simp only [mapSet, if_pos h₁] at he
      rcases List.mem_cons.mp he with he | he
      · exact Or.inl he
      · exact Or.inr he
    · by_cases h₂ : key = k
      · simp only [mapSet, if_neg h₁, if_pos h₂] at he
        rcases List.mem_cons.mp he with he | he
        · exact Or.inl he
        · exact Or.inr (List.mem_cons_of_mem _ he)
      · simp only [mapSet, if_neg h₁, if_neg h₂] at he
        rcases List.mem_cons.mp he with he | he
        · exact Or.inr (by simp [he])
        · rcases ih e he with h | h
          · exact Or.inl h
          · exact Or.inr (List.mem_cons_of_mem _ h)

theorem SortedK_mapSet {m : List (String × Node)} (key : String) (v : Node)
    (hs : SortedK m) : SortedK (mapSet m key v) := by
  induction m with
  | nil => simp [mapSet, SortedK]
  | cons f rest ih =>
    obtain ⟨k, w⟩ := f
    have h' := List.pairwise_cons.mp hs
    by_cases h₁ : strLt key k
    · simp only [mapSet, if_pos h₁]
      refine List.Pairwise.cons ?_ hs
      intro e he
      rcases List.mem_cons.mp he with he | he
      · subst he; exact h₁
      · exact strLt_trans h₁ (h'.1 e he)
    · by_cases h₂ : key = k
      · subst h₂
        simp only [mapSet, if_neg h₁, if_pos rfl]
        exact List.Pairwise.cons h'.1 h'.2
      · simp only [mapSet, if_neg h₁, if_neg h₂]
        refine List.Pairwise.cons ?_ (ih h'.2)
        intro e he
        rcases mapSet_mem e he with he' | he'
        · subst he'
          rcases strLt_total key k with h | h | h
          · exact absurd h h₁
          · exact absurd h h₂
          · exact h
        · exact h'.1 e he'

/-- Writing a key greater than every existing key appends at the end. -/
theorem mapSet_append {m : List (String × Node)} {key : String} {v : Node}
    (hlt : ∀ e ∈ m, strLt e.1 key = true) :
    mapSet m key v = m ++ [(key, v)] := by
  induction m with
  | nil => rfl
  | cons e rest ih =>
    obtain ⟨k, w⟩ := e
    have hk := hlt (k, w) (by simp)
    simp only [mapSet]
    rw [if_neg (fun h => strLt_asymm hk h), if_neg (fun he => strLt_ne hk he.symm)]
    rw [ih (fun e he => hlt e (List.mem_cons_of_mem _ he))]
    rfl

theorem mapGet_eq_none {m : List (String × Node)} {key : String}
    (hlt : ∀ e ∈ m, strLt key e.1 = true) :
    mapGet m key = none := by
  induction m with
  | nil => rfl
  | cons e rest ih =>
    obtain ⟨k, v⟩ := e
    have hk := hlt (k, v) (by simp)
    simp only [mapGet]
    rw [if_neg (fun he => strLt_ne hk he.symm)]
    exact ih (fun e he => hlt e (List.mem_cons_of_mem _ he))

theorem mapGet_mapSet_self (m : List (String × Node)) (key : String) (v : Node) :
    mapGet (mapSet m key v) key = some v := by
  induction m with
  | nil => simp [mapSet, mapGet]
  | cons f rest ih =>
    obtain ⟨k, w⟩ := f
    by_cases h₁ : strLt key k
    · simp [mapSet, if_pos h₁, mapGet]
    · by_cases h₂ : key = k
      · simp [mapSet, if_neg h₁, if_pos h₂, mapGet]
      · simp only [mapSet, if_neg h₁, if_neg h₂, mapGet]
        rw [if_neg (fun he => h₂ he.symm)]
        exact ih

theorem mapGet_mapSet_other (m : List (String × Node)) (key k' : String) (v : Node)
    (hne : k' ≠ key) : mapGet (mapSet m key v) k' = mapGet m k' := by
  induction m with
  | nil =>
    simp only [mapSet, mapGet]
    rw [if_neg (fun h => hne h.symm)]
  | cons f rest ih =>
    obtain ⟨k, w⟩ := f
    by_cases h₁ : strLt key k
    · simp only [mapSet, if_pos h₁, mapGet]
      rw [if_neg (fun he => hne he.symm)]
    · by_cases h₂ : key = k
      · subst h₂
        simp only [mapSet, if_neg h₁, if_pos rfl, mapGet]
        rw [if_neg (fun he => hne he.symm), if_neg (fun he => hne he.symm)]
      · simp only [mapSet, if_neg h₁, if_neg h₂, mapGet]
        by_cases h₃ : k = k'
        · simp [h₃]
        · simp only [if_neg h₃]
          exact ih

/-- One step of the variadic `Get`/`CheckGet` branch: a string key or an
integer index (Go `int` is 64-bit here; the embedding uses `Int` since only
the sign and magnitude are observable). -/
inductive Step where
  | key (k : String)
  | idx (i : Int)
deriving DecidableEq

/-- Source `jman.go` `GetKey`: map lookup returning the value and a success
flag (`none` models `(nil, false)`). -/
def Node.GetKey (j : Node) (k : String) : Option Node :=
  match j with
  | .obj m => mapGet m k
  | _ => none

/-- Source `jman.go` `GetIndex`: after the type assertion to an array, the
code checks only `len(a) > index` and then evaluates `a[index]`, so a
negative index passes the guard and the access panics. -/
def Node.GetIndex (j : Node) (i : Int) : Except GoPanic (Option Node) :=
  match j with
  | .arr a =>
    if i < (a.length : Int) then
      if h : 0 ≤ i ∧ i.toNat < a.length then .ok (some (a.get ⟨i.toNat, h.2⟩))
      else .error .indexOutOfRange
    else .ok none
  | _ => .ok none

/-- Source `jman.go` `CheckGet`: walks the branch, stopping with `(nil, false)`
at the first failing step.  A `GetIndex` panic propagates. -/
def Node.CheckGet (j : Node) (branch : List Step) : Except GoPanic (Option Node) :=
  match branch with
  | [] => .ok (some j)
  | .key k :: rest =>
    match j.GetKey k with
    | some j' => Node.CheckGet j' rest
    | none => .ok none
  | .idx i :: rest =>
    match j.GetIndex i with
    | .error p => .error p
    | .ok (some j') => Node.CheckGet j' rest
    | .ok none => .ok none

/-- Source `jman.go` `Get`: `CheckGet` with the designated nil node
(`&Node\x7bnil\x7d`, i.e. `Node.null`) substituted on failure. -/
def Node.Get (j : Node) (branch : List Step) : Except GoPanic Node :=
  match j.CheckGet branch with
  | .error p => .error p
  | .ok (some j') => .ok j'
  | .ok none => .ok .null

/-- `Get` with a single string key (the form `jsonpath` uses); such a call
never panics, so the `Except` wrapper is dropped. -/
def Node.Get1 (j : Node) (k : String) : Node :=
  match j.GetKey k with
  | some j' => j'
  | none => .null

/-- Source `jman.go` `Set`: requires the node to be a map, otherwise a no-op. -/
def Node.Set (j : Node) (k : String) (v : Node) : Node :=
  match j with
  | .obj m => .obj (mapSet m k v)
  | _ => j

/-- Source `jman.go` `Del`. -/
def Node.Del (j : Node) (k : String) : Node :=
  match j with
  | .obj m => .obj (mapDel m k)
  | _ => j

/-- The map a `SetPath` step descends into: the existing map under `b`, or a
fresh empty map when the key is missing or holds a non-map value. -/
def subMapOf (m : List (String × Node)) (b : String) : List (String × Node) :=
  match mapGet m b with
  | some (.obj m') => m'
  | _ => []

/-- Helper for `SetPath`: the loop over `branch[0 .. len-2]` followed by the
final assignment, acting on the map the node was coerced to.  Mirrors the
source loop: a missing key or a non-map value is replaced by a fresh empty
map before descending. -/
def setPathMap : List (String × Node) → List String → Node → List (String × Node)
  | m, [], _ => m
  | m, [b], v => mapSet m b v
  | m, b :: b' :: rest, v =>
    mapSet m b (.obj (setPathMap (subMapOf m b) (b' :: rest) v))

/-- Source `jman.go` `SetPath`: an empty branch replaces the wrapped value
outright; otherwise the node is coerced to a map (replacing a non-map value
with a fresh empty map) and the branch is walked/created. -/
def Node.SetPath (j : Node) (branch : List String) (v : Node) : Node :=
  match branch with
  | [] => v
  | b :: rest =>
    let m : List (String × Node) :=
      match j with
      | .obj m => m
      | _ => []
    .obj (setPathMap m (b :: rest) v)

/-- Go `strconv.ParseInt(s, 10, 64)` (also `json.Number.Int64`): optional
sign, decimal digits only, 64-bit range check.  Returns the Go result pair
(value, error); on a syntax error the value is 0, on a range error the value
is clamped, exactly as `strconv` does. -/
def stripIntSign (l : List Char) : Bool × List Char :=
  match l with
  | c :: r => if c = '-' then (true, r) else if c = '+' then (false, r) else (false, l)
  | [] => (false, [])

/-- Decimal value of a digit string. -/
def digitsVal (ds : List Char) : Nat :=
  ds.foldl (fun acc c => acc * 10 + (c.toNat - '0'.toNat)) 0

def parseInt64 (l : List Char) : Int × Option GoErr :=
  if (stripIntSign l).2 = [] ∨ ¬ (stripIntSign l).2.all Char.isDigit then
    (0, some .syntaxErr)
  else
    if (stripIntSign l).1 then
      if digitsVal (stripIntSign l).2 ≤ 2 ^ 63 then (-(digitsVal (stripIntSign l).2 : Int), none)
      else (-(2 ^ 63 : Int), some .rangeErr)
    else
      if digitsVal (stripIntSign l).2 < 2 ^ 63 then ((digitsVal (stripIntSign l).2 : Int), none)
      else ((2 ^ 63 - 1 : Int), some .rangeErr)

/-- Go `strconv.ParseUint(s, 10, 64)`: no sign allowed, 64-bit range check. -/
def parseUint64 (l : List Char) : Nat × Option GoErr :=
  if l = [] ∨ ¬ l.all Char.isDigit then (0, some .syntaxErr)
  else
    if digitsVal l < 2 ^ 64 then (digitsVal l, none) else (2 ^ 64 - 1, some .rangeErr)

/-- Decimal digit test used by the number grammar. -/
def isDig (c : Char) : Bool := c.isDigit

/-- Strip one leading minus sign (the only sign a JSON number may carry). -/
def stripNeg (l : List Char) : List Char :=
  match l with
  | c :: r => if c = '-' then r else c :: r
  | [] => []

/-- Strip one leading `+` or `-` of an exponent. -/
def stripExpSign (l : List Char) : List Char :=
  match l with
  | c :: r => if c = '-' ∨ c = '+' then r else c :: r
  | [] => []

/-- Exponent-part check shared by the JSON number grammar and the
`ParseFloat` model: empty, or `e`/`E`, an optional sign and at least one
digit spanning the whole remainder. -/
def numExpTail (r : List Char) : Bool :=
  match r with
  | [] => true
  | e :: r' =>
    (e = 'e' || e = 'E') && (!(stripExpSign r').isEmpty && (stripExpSign r').all isDig)

/-- Fraction-then-exponent check of the JSON number grammar: an optional
`.digits+` followed by `numExpTail`. -/
def numFracTail (r : List Char) : Bool :=
  match r with
  | c :: r' =>
    if c = '.' then !(r'.takeWhile isDig).isEmpty && numExpTail (r'.dropWhile isDig)
    else numExpTail (c :: r')
  | [] => true

/-- Body of the JSON number grammar after the optional minus sign. -/
def numTokBody (t : List Char) : Bool :=
  match t with
  | c :: r =>
    if c = '0' then numFracTail r
    else isDig c && numFracTail (r.dropWhile isDig)
  | [] => false

/-- The JSON number grammar (`encoding/json` scanner): optional minus, `0`
or a nonzero digit followed by digits, optional fraction, optional
exponent. -/
def numTok (l : List Char) : Bool := numTokBody (stripNeg l)

/-- Mantissa-and-exponent check of the `strconv.ParseFloat(s, 64)` model:
a digit/dot mantissa containing at least one digit and at most one dot,
followed by an optional decimal exponent.  The platform additionally accepts
`Inf`/`NaN`/hex forms, which can never be stored in a `json.Number` by this
library, so they are left out of the model. -/
def goFloatCore (t : List Char) : Bool :=
  ((t.takeWhile (fun c => isDig c || c = '.')).any isDig) &&
    ((t.takeWhile (fun c => isDig c || c = '.')).count '.' ≤ 1) &&
    numExpTail (t.dropWhile (fun c => isDig c || c = '.'))

/-- Syntax acceptance of Go `strconv.ParseFloat(s, 64)` restricted to
decimal forms (see `goFloatCore`); the overflow (range-error) condition is
checked separately by `floatTooBig`. -/
def goFloatSyntaxOk (l : List Char) : Bool := goFloatCore (stripIntSign l).2

/-- Smallest decimal magnitude that `strconv.ParseFloat(s, 64)` reports as a
range error: half an ULP above the largest finite `float64`, i.e.
`2^1024 - 2^970`.  A well-formed decimal rounds to `±Inf` (and `ParseFloat`
returns `ErrRange`) exactly when its magnitude is at or above this bound;
any smaller magnitude — including underflow, which Go flushes to zero with
a nil error — parses without error. -/
def floatMaxBound : Nat := 2 ^ 1024 - 2 ^ 970

/-- Overflow check of the `strconv.ParseFloat(s, 64)` model on the unsigned
token body: the token's exact decimal value `D * 10 ^ E` (mantissa digits
`D`, decimal exponent `E` adjusted by the fraction length) is compared
against `floatMaxBound` with exact integer arithmetic. -/
def floatTooBig (t : List Char) : Bool :=
  let mant := t.takeWhile (fun c => isDig c || c = '.')
  let ds := mant.filter isDig
  let fracLen : Nat := (mant.dropWhile isDig).length - 1
  let expVal : Int :=
    match t.dropWhile (fun c => isDig c || c = '.') with
    | _ :: r =>
      if r.head? = some '-' then -(digitsVal (stripExpSign r) : Int)
      else (digitsVal (stripExpSign r) : Int)
    | [] => 0
  let e2 : Int := expVal - (fracLen : Int)
  decide (digitsVal ds ≠ 0) &&
    (if 0 ≤ e2 then decide (floatMaxBound ≤ digitsVal ds * 10 ^ e2.toNat)
     else decide (floatMaxBound * 10 ^ (-e2).toNat ≤ digitsVal ds))

/-- Source `jman.go` `String()` coercion: type assertion to `string`,
returning the Go pair (value, error). -/
def Node.asString (j : Node) : String × Option GoErr :=
  match j with
  | .str s => (s, none)
  | _ => ("", some (.typeAssertionFailed "string"))

/-- Source `jman.go` `Bool()` coercion. -/
def Node.asBool (j : Node) : Bool × Option GoErr :=
  match j with
  | .bool b => (b, none)
  | _ => (false, some (.typeAssertionFailed "bool"))

/-- Source `jman.go` `Bytes()` coercion (string viewed as bytes). -/
def Node.asBytes (j : Node) : String × Option GoErr :=
  match j with
  | .str s => (s, none)
  | _ => ("", some (.typeAssertionFailed "bytes"))

/-- Source `jman.go` `Map()` coercion: type assertion to
`map[string]interface\x7b\x7d`; `none` models `(nil, error)`. -/
def Node.asMap (j : Node) : Option (List (String × Node)) :=
  match j with
  | .obj m => some m
  | _ => none

/-- Source `jman.go` `Array()` coercion: type assertion to `[]interface\x7b\x7d`. -/
def Node.asArray (j : Node) : Option (List Node) :=
  match j with
  | .arr a => some a
  | _ => none

/-- Source `jman.go` `Int()`: on a `json.Number` it calls `Number.Int64`
(`ParseInt` base 10) and converts with `int(i)` (the identity on a 64-bit
platform); on any non-numeric value it returns `(0, "invalid value type")`.
The reflect-based cases for native Go ints/floats concern values this
library never stores in a document and are outside the value universe. -/
def Node.asInt (j : Node) : Int × Option GoErr :=
  match j with
  | .num s => parseInt64 s.data
  | _ => (0, some .invalidValueType)

/-- Source `jman.go` `Int64()`: identical to `Int()` on this value universe. -/
def Node.asInt64 (j : Node) : Int × Option GoErr :=
  match j with
  | .num s => parseInt64 s.data
  | _ => (0, some .invalidValueType)

/-- Source `jman.go` `Uint64()`: `strconv.ParseUint(number.String(), 10, 64)`. -/
def Node.asUint64 (j : Node) : Nat × Option GoErr :=
  match j with
  | .num s => parseUint64 s.data
  | _ => (0, some .invalidValueType)

/-- Source `jman.go` `Float64()`, error component only: on a `json.Number` it
calls `Number.Float64` (`strconv.ParseFloat(s, 64)`): a malformed token
gives a syntax error, a well-formed token whose magnitude reaches
`floatMaxBound` gives the `ErrRange` overflow error (`ParseFloat` returns
`±Inf` with `ErrRange` there, e.g. on `1e400`), and every other token
succeeds; the floating-point value itself is not modelled. -/
def Node.asFloat64Err (j : Node) : Option GoErr :=
  match j with
  | .num s =>
    if goFloatSyntaxOk s.data then
      if floatTooBig (stripIntSign s.data).2 then some .rangeErr else none
    else some .syntaxErr
  | _ => some .invalidValueType

/-- Opening brace character (written via its code point). -/
def lbrace : Char := Char.ofNat 123

/-- Closing brace character (written via its code point). -/
def rbrace : Char := Char.ofNat 125

/-- Lowercase hexadecimal digit, as the Go encoder emits. -/
def hexDigitChar (d : Nat) : Char :=
  if d < 10 then Char.ofNat ('0'.toNat + d) else Char.ofNat ('a'.toNat + (d - 10))

/-- Four lowercase hex digits of `n < 0x10000`. -/
def hex4 (n : Nat) : List Char :=
  [hexDigitChar (n / 4096 % 16), hexDigitChar (n / 256 % 16),
   hexDigitChar (n / 16 % 16), hexDigitChar (n % 16)]

/-- Go `encoding/json` string escaping (with the default HTML escaping):
quote, backslash, `\n`/`\r`/`\t`, other control characters as `\u00xx`,
`<`, `>`, `&`, U+2028 and U+2029 as `\uxxxx`; everything else verbatim. -/
def escChar (c : Char) : List Char :=
  if c = '"' then ['\\', '"']
  else if c = '\\' then ['\\', '\\']
  else if c = '\n' then ['\\', 'n']
  else if c = '\r' then ['\\', 'r']
  else if c = '\t' then ['\\', 't']
  else if c.toNat < 32 then '\\' :: 'u' :: hex4 c.toNat
  else if c = '<' ∨ c = '>' ∨ c = '&' then '\\' :: 'u' :: hex4 c.toNat
  else if c.toNat = 8232 ∨ c.toNat = 8233 then '\\' :: 'u' :: hex4 c.toNat
  else [c]

/-- Encoded JSON string literal, quotes included. -/
def encString (s : String) : List Char :=
  '"' :: (s.data.flatMap escChar) ++ ['"']

mutual
/-- Go `json.Marshal` of a document value: compact, map keys in sorted order
(which is the stored order of the representation). -/
def encC : Node → List Char
  | .null => 'n' :: 'u' :: 'l' :: 'l' :: []
  | .bool true => 't' :: 'r' :: 'u' :: 'e' :: []
  | .bool false => 'f' :: 'a' :: 'l' :: 's' :: 'e' :: []
  | .str s => encString s
  | .num s => s.data
  | .arr xs => '[' :: encElems xs ++ [']']
  | .obj kvs => lbrace :: encFields kvs ++ [rbrace]
/-- Comma-separated encodings of array elements. -/
def encElems : List Node → List Char
  | [] => []
  | [x] => encC x
  | x :: y :: rest => encC x ++ ',' :: encElems (y :: rest)
/-- Comma-separated `"key":value` encodings of object entries. -/
def encFields : List (String × Node) → List Char
  | [] => []
  | [(k, v)] => encString k ++ ':' :: encC v
  | (k, v) :: e :: rest => encString k ++ ':' :: encC v ++ ',' :: encFields (e :: rest)
end

/-- Source `jman.go` `Encode`/`MarshalJSON`. -/
def Node.Encode (j : Node) : List Char := encC j

/-- Indentation used by `EncodePretty`: `d` levels of two spaces. -/
def indentC (d : Nat) : List Char := List.replicate (2 * d) ' '

mutual
/-- Go `json.MarshalIndent(v, "", "  ")` of a document value. -/
def encP : Node → Nat → List Char
  | .arr [], _ => '[' :: [']']
  | .arr (x :: xs), d =>
    '[' :: '\n' :: encPElems (x :: xs) (d + 1) ++ '\n' :: indentC d ++ [']']
  | .obj [], _ => lbrace :: [rbrace]
  | .obj (e :: kvs), d =>
    lbrace :: '\n' :: encPFields (e :: kvs) (d + 1) ++ '\n' :: indentC d ++ [rbrace]
  | j, _ => encC j
/-- Indented array elements, one per line. -/
def encPElems : List Node → Nat → List Char
  | [], _ => []
  | [x], d => indentC d ++ encP x d
  | x :: y :: rest, d => indentC d ++ encP x d ++ ',' :: '\n' :: encPElems (y :: rest) d
/-- Indented `"key": value` lines. -/
def encPFields : List (String × Node) → Nat → List Char
  | [], _ => []
  | [(k, v)], d => indentC d ++ encString k ++ ':' :: ' ' :: encP v d
  | (k, v) :: e :: rest, d =>
    indentC d ++ encString k ++ ':' :: ' ' :: encP v d ++ ',' :: '\n' :: encPFields (e :: rest) d
end

/-- Source `jman.go` `EncodePretty`. -/
def Node.EncodePretty (j : Node) : List Char := encP j 0

/-- JSON whitespace accepted between tokens. -/
def isWS (c : Char) : Bool := c = ' ' || c = '\t' || c = '\n' || c = '\r'

/-- Skip leading whitespace. -/
def skipWS : List Char → List Char
  | [] => []
  | c :: r => if isWS c then skipWS r else c :: r

theorem skipWS_length_le : ∀ s : List Char, (skipWS s).length ≤ s.length
  | [] => Nat.le_refl _
  | c :: r => by
    simp only [skipWS]
    by_cases h : isWS c
    · simp only [if_pos h]
      exact Nat.le_trans (skipWS_length_le r) (by simp)
    · simp [if_neg h]

/-- Value of a hexadecimal digit (either case). -/
def hexVal (c : Char) : Option Nat :=
  if '0'.toNat ≤ c.toNat ∧ c.toNat ≤ '9'.toNat then some (c.toNat - '0'.toNat)
  else if 'a'.toNat ≤ c.toNat ∧ c.toNat ≤ 'f'.toNat then some (c.toNat - 'a'.toNat + 10)
  else if 'A'.toNat ≤ c.toNat ∧ c.toNat ≤ 'F'.toNat then some (c.toNat - 'A'.toNat + 10)
  else none

/-- Decoded character of a single-letter escape sequence. -/
def escDecode (e : Char) : Option Char :=
  if e = '"' then some '"'
  else if e = '\\' then some '\\'
  else if e = '/' then some '/'
  else if e = 'b' then some (Char.ofNat 8)
  else if e = 'f' then some (Char.ofNat 12)
  else if e = 'n' then some '\n'
  else if e = 'r' then some '\r'
  else if e = 't' then some '\t'
  else none

/-- Decode the body of a JSON string literal (after the opening quote) up to
and including the closing quote, returning the decoded characters and the
rest of the input.  Escapes follow the platform decoder: the single-letter
escapes, `\uXXXX` (with surrogate pairs combined and unpaired surrogates
replaced by U+FFFD), and raw characters at or above U+0020. -/
def pStringBodyF : Nat → List Char → Option (List Char × List Char)
  | 0, _ => none
  | _ + 1, [] => none
  | fuel + 1, c :: rest =>
    if c = '"' then some ([], rest)
    else if c = '\\' then
      match rest with
      | [] => none
      | e :: rest2 =>
        if e = 'u' then
          match rest2 with
          | a :: b :: c' :: d :: rest3 =>
            match hexVal a, hexVal b, hexVal c', hexVal d with
            | some x, some y, some z, some w =>
              let n : Nat := x * 4096 + y * 256 + z * 16 + w
              if 0xD800 ≤ n ∧ n < 0xDC00 then
                match rest3 with
                | '\\' :: 'u' :: a₂ :: b₂ :: c₂ :: d₂ :: rest5 =>
                  match hexVal a₂, hexVal b₂, hexVal c₂, hexVal d₂ with
                  | some x₂, some y₂, some z₂, some w₂ =>
                    let n₂ : Nat := x₂ * 4096 + y₂ * 256 + z₂ * 16 + w₂
                    if 0xDC00 ≤ n₂ ∧ n₂ < 0xE000 then
                      (pStringBodyF fuel rest5).map (fun p =>
                        (Char.ofNat (0x10000 + (n - 0xD800) * 1024 + (n₂ - 0xDC00)) :: p.1, p.2))
                    else
                      (pStringBodyF fuel rest3).map (fun p => (Char.ofNat 0xFFFD :: p.1, p.2))
                  | _, _, _, _ =>
                    (pStringBodyF fuel rest3).map (fun p => (Char.ofNat 0xFFFD :: p.1, p.2))
                | _ =>
                  (pStringBodyF fuel rest3).map (fun p => (Char.ofNat 0xFFFD :: p.1, p.2))
              else if 0xDC00 ≤ n ∧ n < 0xE000 then
                (pStringBodyF fuel rest3).map (fun p => (Char.ofNat 0xFFFD :: p.1, p.2))
              else
                (pStringBodyF fuel rest3).map (fun p => (Char.ofNat n :: p.1, p.2))
            | _, _, _, _ => none
          | _ => none
        else
          match escDecode e with
          | some d => (pStringBodyF fuel rest2).map (fun p => (d :: p.1, p.2))
          | none => none
    else if c.toNat < 32 then none
    else (pStringBodyF fuel rest).map (fun p => (c :: p.1, p.2))

/-- Decode a JSON string literal body with always-sufficient fuel. -/
def pStringBody (s : List Char) : Option (List Char × List Char) :=
  pStringBodyF (s.length + 1) s

/-- Head-is-a-digit test (the scanner's one-character lookahead after `0`). -/
def headIsDig : List Char → Bool
  | d :: _ => isDig d
  | [] => false

/-- Integer part of a JSON number: `0`, or a nonzero digit followed by
digits; a digit directly after a leading `0` is a syntax error. -/
def pTakeInt : List Char → Option (List Char × List Char)
  | [] => none
  | c :: r =>
    if c = '0' then (if headIsDig r then none else some (['0'], r))
    else if isDig c then some (c :: r.takeWhile isDig, r.dropWhile isDig)
    else none

/-- Optional fraction part: a dot must be followed by at least one digit. -/
def pTakeFrac : List Char → Option (List Char × List Char)
  | [] => some ([], [])
  | c :: r =>
    if c = '.' then
      if r.takeWhile isDig = [] then none
      else some ('.' :: r.takeWhile isDig, r.dropWhile isDig)
    else some ([], c :: r)

/-- Sign of an exponent: the consumed sign characters and the remainder. -/
def expSign : List Char → List Char × List Char
  | [] => ([], [])
  | c :: r => if c = '-' ∨ c = '+' then ([c], r) else ([], c :: r)

/-- Optional exponent part: `e`/`E`, optional sign, at least one digit. -/
def pTakeExp : List Char → Option (List Char × List Char)
  | [] => some ([], [])
  | c :: r =>
    if c = 'e' ∨ c = 'E' then
      if (expSign r).2.takeWhile isDig = [] then none
      else some (c :: (expSign r).1 ++ (expSign r).2.takeWhile isDig,
        (expSign r).2.dropWhile isDig)
    else some ([], c :: r)

/-- Minus sign of a number token. -/
def numSign : List Char → List Char × List Char
  | [] => ([], [])
  | c :: r => if c = '-' then (['-'], r) else ([], c :: r)

/-- Scan one JSON number token (optional minus, integer part, optional
fraction, optional exponent), keeping its text, as the platform does under
`UseNumber`. -/
def pNum (s : List Char) : Option (Node × List Char) :=
  match pTakeInt (numSign s).2 with
  | none => none
  | some (ip, r1) =>
    match pTakeFrac r1 with
    | none => none
    | some (fp, r2) =>
      match pTakeExp r2 with
      | none => none
      | some (ep, r3) => some (.num (String.mk ((numSign s).1 ++ ip ++ fp ++ ep)), r3)

/-- The three keyword literals. -/
def pLit : List Char → Option (Node × List Char)
  | 'n' :: 'u' :: 'l' :: 'l' :: rest => some (.null, rest)
  | 't' :: 'r' :: 'u' :: 'e' :: rest => some (.bool true, rest)
  | 'f' :: 'a' :: 'l' :: 's' :: 'e' :: rest => some (.bool false, rest)
  | _ => none

mutual
/-- Decode one JSON value from the input, returning it and the unconsumed
rest (the platform `Decoder.Decode` reads a single value).  The `fuel`
argument makes the recursion structural; `pVal` below supplies fuel that is
always sufficient (each recursive call consumes one unit and the call count
is bounded by `3 * input length + constant`). -/
def pValF : Nat → List Char → Option (Node × List Char)
  | 0, _ => none
  | fuel + 1, s =>
    match skipWS s with
    | [] => none
    | c :: rest =>
      if c = lbrace then pMembers0F fuel rest
      else if c = '[' then pElems0F fuel rest
      else if c = '"' then (pStringBody rest).map (fun p => (.str (String.mk p.1), p.2))
      else if c = 'n' ∨ c = 't' ∨ c = 'f' then pLit (c :: rest)
      else if c = '-' ∨ isDig c then pNum (c :: rest)
      else none
/-- After `[`: empty array or the element loop. -/
def pElems0F : Nat → List Char → Option (Node × List Char)
  | 0, _ => none
  | fuel + 1, s =>
    match skipWS s with
    | ']' :: r => some (.arr [], r)
    | _ => pElemsF fuel s []
/-- Element loop of an array. -/
def pElemsF : Nat → List Char → List Node → Option (Node × List Char)
  | 0, _, _ => none
  | fuel + 1, s, acc =>
    match pValF fuel s with
    | none => none
    | some (v, r) =>
      match skipWS r with
      | ',' :: r2 => pElemsF fuel r2 (acc ++ [v])
      | ']' :: r2 => some (.arr (acc ++ [v]), r2)
      | _ => none
/-- After the opening brace: empty object or the member loop. -/
def pMembers0F : Nat → List Char → Option (Node × List Char)
  | 0, _ => none
  | fuel + 1, s =>
    match skipWS s with
    | c :: r => if c = rbrace then some (.obj [], r) else pMembersF fuel s []
    | [] => pMembersF fuel s []
/-- Member loop of an object: each member is decoded and assigned with
`m[key] = v` (`mapSet`), so a repeated key takes the last value. -/
def pMembersF : Nat → List Char → List (String × Node) → Option (Node × List Char)
  | 0, _, _ => none
  | fuel + 1, s, acc =>
    match skipWS s with
    | '"' :: r =>
      match pStringBody r with
      | none => none
      | some (kcs, r2) =>
        match skipWS r2 with
        | ':' :: r3 =>
          match pValF fuel r3 with
          | none => none
          | some (v, r4) =>
            match skipWS r4 with
            | ',' :: r5 => pMembersF fuel r5 (mapSet acc (String.mk kcs) v)
            | c :: r5 =>
              if c = rbrace then some (.obj (mapSet acc (String.mk kcs) v), r5) else none
            | [] => none
        | _ => none
    | _ => none
end

/-- Decode one JSON value with always-sufficient fuel. -/
def pVal (s : List Char) : Option (Node × List Char) :=
  pValF (3 * s.length + 1) s

/-- Source `jman.go` `New`/`UnmarshalJSON`: decode one value via the platform
decoder (with `UseNumber`); a decode failure is returned as an error. -/
def New (bytes : List Char) : Except GoErr Node :=
  match pVal bytes with
  | some (v, _) => .ok v
  | none => .error .parseError


example : New "\x7b\"b\":1,\"a\":[true,null,\"hi\"]\x7d".data =
    .ok (.obj [("a", .arr [.bool true, .null, .str "hi"]), ("b", .num "1")]) := by decide

example : New "[1.5e3,-0.2,\"a\\u00e9b\"]".data =
    .ok (.arr [.num "1.5e3", .num "-0.2", .str "aéb"]) := by decide

example : New "01".data = .error .parseError := by decide

example : encC (.obj [("a", .arr [.bool true, .null, .str "hi"]), ("b", .num "1")]) =
    "\x7b\"a\":[true,null,\"hi\"],\"b\":1\x7d".data := by decide

/-- Split at the first occurrence of `sep` (`strings.SplitN(s, sep, 2)` when
`strings.Contains(s, sep)`); `none` when `sep` does not occur. -/
def splitFirst (sep : Char) : List Char → Option (List Char × List Char)
  | [] => none
  | c :: rest =>
    if c = sep then some ([], rest)
    else (splitFirst sep rest).map (fun p => (c :: p.1, p.2))

/-- Split at the last occurrence of `sep` (`strings.LastIndex`). -/
def splitLast (sep : Char) : List Char → Option (List Char × List Char)
  | [] => none
  | c :: rest =>
    match splitLast sep rest with
    | some (a, b) => some (c :: a, b)
    | none => if c = sep then some ([], rest) else none

/-- Go `strings.Contains` for a single-character separator. -/
def containsC (sep : Char) (l : List Char) : Bool := l.any (fun c => c = sep)

theorem splitFirst_length {sep : Char} :
    ∀ {l a b : List Char}, splitFirst sep l = some (a, b) → b.length < l.length := by
  intro l
  induction l with
  | nil => intro a b h; simp [splitFirst] at h
  | cons c rest ih =>
    intro a b h
    simp only [splitFirst] at h
    by_cases hc : c = sep
    · rw [if_pos hc] at h
      cases h
      simp
    · rw [if_neg hc] at h
      cases hr : splitFirst sep rest with
      | none => rw [hr] at h; simp at h
      | some p =>
        rw [hr] at h
        simp only [Option.map] at h
        cases h
        exact Nat.lt_trans (ih hr) (by simp)

/-- Characterization of `splitFirst`: it cuts at the first occurrence. -/
theorem splitFirst_eq_some {sep : Char} :
    ∀ {l a b : List Char}, splitFirst sep l = some (a, b) →
      l = a ++ sep :: b ∧ containsC sep a = false := by
  intro l
  induction l with
  | nil => intro a b h; simp [splitFirst] at h
  | cons c rest ih =>
    intro a b h
    simp only [splitFirst] at h
    by_cases hc : c = sep
    · rw [if_pos hc] at h
      cases h
      subst hc
      exact ⟨rfl, rfl⟩
    · rw [if_neg hc] at h
      cases hr : splitFirst sep rest with
      | none => rw [hr] at h; simp at h
      | some p =>
        obtain ⟨a', b'⟩ := p
        rw [hr] at h
        simp only [Option.map] at h
        cases h
        obtain ⟨h1, h2⟩ := ih hr
        refine ⟨by rw [h1]; rfl, ?_⟩
        simp [containsC, hc]
        simpa [containsC] using h2

/-- Absence characterization of `splitFirst`. -/
theorem splitFirst_eq_none {sep : Char} :
    ∀ {l : List Char}, splitFirst sep l = none → containsC sep l = false := by
  intro l
  induction l with
  | nil => intro _; rfl
  | cons c rest ih =>
    intro h
    simp only [splitFirst] at h
    by_cases hc : c = sep
    · rw [if_pos hc] at h; simp at h
    · rw [if_neg hc] at h
      cases hr : splitFirst sep rest with
      | none => simp [containsC, hc]; simpa [containsC] using ih hr
      | some p => rw [hr] at h; simp at h

/-- Go `strconv.Atoi` (= `ParseInt(s, 10, 0)` with 64-bit `int`). -/
def Atoi (l : List Char) : Int × Option GoErr := parseInt64 l

/-- Result of the split of a `jsonpath` recursion step:
`(firstpart, secondpart)` as computed by lines 52-58 of `jfile.go`. -/
def splitDot (path : List Char) : List Char × List Char :=
  match splitFirst '.' path with
  | some (a, b) => (a, b)
  | none => (path, [])

/-- The `name[index]` split of a bracket segment:
`strings.SplitN(firstpart, "[", 2)` (the fallback arm is unreachable under
the `Contains` guard). -/
def segFields (firstpart : List Char) : List Char × List Char :=
  match splitFirst '[' firstpart with
  | some p => p
  | none => (firstpart, [])

/-- The index token of a bracket segment:
`strings.SplitN(fields[1], "]", 2)[0]` (when `]` is absent Go returns the
whole remainder as the single field). -/
def segTok (firstpart : List Char) : List Char :=
  match splitFirst ']' (segFields firstpart).2 with
  | some p => p.1
  | none => (segFields firstpart).2

/-- The node after the optional `js = js.Get(name)` of a bracket segment
(skipped when the name is the literal `x`). -/
def segJs1 (js : Node) (firstpart : List Char) : Node :=
  if (segFields firstpart).1 ≠ ['x'] then js.Get1 (String.mk (segFields firstpart).1) else js

/-- Ghost-trace counterpart of `segJs1`. -/
def segTrace1 (trace : List Step) (firstpart : List Char) : List Step :=
  if (segFields firstpart).1 ≠ ['x'] then trace ++ [.key (String.mk (segFields firstpart).1)]
  else trace

/-- Recursive JSON path lookup, `jsonpath` of `jfile.go`, with a ghost
accumulator `trace` recording the key/index steps through which the returned
node was reached from the root.  The accumulator models Go pointer aliasing:
the caller mutates the returned node's map in place, which in the pure
embedding is an update of the root at `trace`.  The `fuel` argument makes the
recursion structural; `jsonpathT` supplies sufficient fuel (the path length
strictly decreases at each recursive call). -/
def jsonpathF : Nat → Node → List Char → List Step →
    Except GoPanic (Node × List Step × List Char × Option GoErr)
  | 0, js, path, trace => .ok (js, trace, path, some .specificNode)
  | fuel + 1, js, path, trace =>
    if path = [] then .ok (js, trace, path, some .specificNode)
    else if (splitDot path).1 = ['x'] then jsonpathF fuel js (splitDot path).2 trace
    else if containsC '[' (splitDot path).1 && containsC ']' (splitDot path).1 then
      match Atoi (segTok (splitDot path).1) with
      | (_, some _) =>
        .ok (segJs1 js (splitDot path).1, segTrace1 trace (splitDot path).1, path,
          some (.invalidIndex (String.mk (segTok (splitDot path).1))))
      | (i, none) =>
        match (segJs1 js (splitDot path).1).GetIndex i with
        | .error p => .error p
        | .ok none =>
          .ok (segJs1 js (splitDot path).1, segTrace1 trace (splitDot path).1, path,
            some (.couldNotFindIndex (String.mk (segTok (splitDot path).1))))
        | .ok (some node) =>
          jsonpathF fuel node (splitDot path).2
            (segTrace1 trace (splitDot path).1 ++ [.idx i])
    else if (splitDot path).2 ≠ [] then
      .ok (js, trace, path, some (.leftUnparsed (String.mk (splitDot path).2)))
    else
      .ok (js.Get1 (String.mk (splitDot path).1),
        trace ++ [.key (String.mk (splitDot path).1)], [], none)

/-- `jsonpath` with always-sufficient fuel. -/
def jsonpathT (js : Node) (path : List Char) (trace : List Step) :
    Except GoPanic (Node × List Step × List Char × Option GoErr) :=
  jsonpathF (path.length + 1) js path trace

theorem splitDot_length_lt {path : List Char} (hne : path ≠ []) :
    (splitDot path).2.length < path.length := by
  unfold splitDot
  cases hr : splitFirst '.' path with
  | none =>
    cases path with
    | nil => exact absurd rfl hne
    | cons c rest => simp
  | some p =>
    obtain ⟨a, b⟩ := p
    simpa using splitFirst_length hr

/-- The fuel argument of `jsonpathF` is irrelevant once it exceeds the path
length. -/
theorem jsonpathF_fuel : ∀ f₁ f₂ : Nat, ∀ js path trace,
    path.length < f₁ → path.length < f₂ →
    jsonpathF f₁ js path trace = jsonpathF f₂ js path trace := by
  intro f₁
  induction f₁ with
  | zero => intro f₂ js path trace h₁ _; exact absurd h₁ (by omega)
  | succ f₁ ih =>
    intro f₂ js path trace h₁ h₂
    cases f₂ with
    | zero => exact absurd h₂ (by omega)
    | succ f₂ =>
      simp only [jsonpathF]
      by_cases hp : path = []
      · simp [hp]
      · rw [if_neg hp, if_neg hp]
        have hlt := splitDot_length_lt hp
        by_cases hx : (splitDot path).1 = ['x']
        · rw [if_pos hx, if_pos hx]
          exact ih f₂ js (splitDot path).2 trace (by omega) (by omega)
        · rw [if_neg hx, if_neg hx]
          by_cases hbr : (containsC '[' (splitDot path).1 &&
              containsC ']' (splitDot path).1) = true
          · rw [if_pos hbr, if_pos hbr]
            split
            · rfl
            · split
              · rfl
              · rfl
              · exact ih f₂ _ (splitDot path).2 _ (by omega) (by omega)
          · rw [if_neg hbr, if_neg hbr]

/-- Update the value stored at an existing key (no insertion). -/
def mapModify : List (String × Node) → String → (Node → Node) → List (String × Node)
  | [], _, _ => []
  | (k, v) :: rest, key, f =>
    if k = key then (k, f v) :: rest else (k, v) :: mapModify rest key f

/-- Apply `f` to the subtree of `root` reached by the access trace, leaving
the tree unchanged when the trace does not denote a position.  This is the
pure counterpart of mutating, through a Go pointer, the node that `jsonpath`
returned. -/
def setAtTrace : Node → List Step → (Node → Node) → Node
  | root, [], f => f root
  | root, .key k :: rest, f =>
    match root with
    | .obj m => .obj (mapModify m k (fun child => setAtTrace child rest f))
    | _ => root
  | root, .idx i :: rest, f =>
    match root with
    | .arr a =>
      if h : 0 ≤ i ∧ i.toNat < a.length then
        .arr (a.set i.toNat (setAtTrace (a.get ⟨i.toNat, h.2⟩) rest f))
      else root
    | _ => root

/-- The subtree of `root` denoted by an access trace. -/
def nodeAt : Node → List Step → Option Node
  | root, [] => some root
  | root, .key k :: rest =>
    match root.GetKey k with
    | some child => nodeAt child rest
    | none => none
  | root, .idx i :: rest =>
    match root with
    | .arr a =>
      if h : 0 ≤ i ∧ i.toNat < a.length then nodeAt (a.get ⟨i.toNat, h.2⟩) rest else none
    | _ => none

/-- First occurrence split for `bytes.Replace`: the part before the first
occurrence of `old` and the part after it. -/
def findSplit : List Char → List Char → Option (List Char × List Char)
  | s, old =>
    if old.isPrefixOf s then some ([], s.drop old.length)
    else
      match s with
      | [] => none
      | c :: rest => (findSplit rest old).map (fun p => (c :: p.1, p.2))

/-- Go `bytes.Replace(s, old, nw, 1)`: replace the first occurrence. -/
def replace1 (s old nw : List Char) : List Char :=
  match findSplit s old with
  | some (pre, post) => pre ++ nw ++ post
  | none => s

/-- The `firstpart`/`lastpart` split at the last dot used by `SetString` and
`AddJSON` (`firstpart` is empty when the path has no dot). -/
def splitLastDot (path : List Char) : List Char × List Char :=
  match splitLast '.' path with
  | some p => p
  | none => ([], path)

/-- Outcome of a `JFile` mutation: the Go error result, the root node after
the call, and the bytes written to the file (`none` when nothing is written). -/
structure MutationResult where
  err : Option GoErr
  root : Node
  written : Option (List Char)
deriving DecidableEq

/-- Source `jfile.go` `SetString`: split at the last dot, resolve the prefix
(treating `ErrSpecificNode` as success), require the final segment to exist
as a key of the resolved parent (`CheckGet` with one string key, i.e.
`GetKey`), overwrite it via the parent's map, re-serialize the whole document
with `EncodePretty` and write it. -/
def SetString (root : Node) (path value : String) : Except GoPanic MutationResult :=
  match jsonpathT root (splitLastDot path.data).1 [] with
  | .error p => .error p
  | .ok (node, trace, _, errOpt) =>
    if errOpt ≠ none ∧ errOpt ≠ some .specificNode then .ok ⟨errOpt, root, none⟩
    else
      match node.GetKey (String.mk (splitLastDot path.data).2) with
      | none => .ok ⟨some .couldNotSet, root, none⟩
      | some _ =>
        .ok ⟨none,
          setAtTrace root trace
            (fun n => n.Set (String.mk (splitLastDot path.data).2) (.str value)),
          some (Node.EncodePretty (setAtTrace root trace
            (fun n => n.Set (String.mk (splitLastDot path.data).2) (.str value))))⟩

/-- Source `jfile.go` `AddJSON`: split at the last dot, resolve the prefix,
require the final segment NOT to exist as a key, splice the fragment into the
compact encoding of the resolved node inside the compact encoding of the
whole document (`bytes.Replace`, first occurrence, dropping the closing
bracket and appending `,fragment]`), re-parse the spliced document, replace
the root wholesale, and write its pretty encoding. -/
def AddJSON (root : Node) (path jsondata : String) : Except GoPanic MutationResult :=
  match jsonpathT root (splitLastDot path.data).1 [] with
  | .error p => .error p
  | .ok (node, _, _, errOpt) =>
    if errOpt ≠ none ∧ errOpt ≠ some .specificNode then .ok ⟨errOpt, root, none⟩
    else
      match node.GetKey (String.mk (splitLastDot path.data).2) with
      | some _ => .ok ⟨some .pathToSingleKey, root, none⟩
      | none =>
        match New (replace1 (Node.Encode root) (Node.Encode node)
            ((Node.Encode node).dropLast ++ ',' :: jsondata.data ++ [']'])) with
        | .error e => .ok ⟨some e, root, none⟩
        | .ok js => .ok ⟨none, js, some (Node.EncodePretty js)⟩

/-- Source `jfile.go` `GetNode`: resolve the whole path; any resolver error
(including the `ErrSpecificNode` sentinel) is returned, then leftover path
text is rejected.  (The `foundnode == nil` check of the source is provably
unreachable: `jsonpath` never returns a nil pointer.) -/
def GetNode (root : Node) (path : String) : Except GoPanic (Except GoErr Node) :=
  match jsonpathT root path.data [] with
  | .error p => .error p
  | .ok (_, _, _, some e) => .ok (.error e)
  | .ok (node, _, leftover, none) =>
    if leftover ≠ [] then .ok (.error (.leftUnparsed (String.mk leftover)))
    else .ok (.ok node)

/-- Source `jfile.go` `GetString`: `return node.String(), nil` — the string
part of the coercion is returned with a nil error; only `GetNode` errors are
propagated. -/
def GetString (root : Node) (path : String) : Except GoPanic (String × Option GoErr) :=
  match GetNode root path with
  | .error p => .error p
  | .ok (.error e) => .ok ("", some e)
  | .ok (.ok node) => .ok ((node.asString).1, none)

/-- Concrete document used by the C10 claim: a one-element array under
key `arr`. -/
def docIdx : Node := .obj [("arr", .arr [.num "10", .num "20"])]

/-- Claim C10: `GetIndex` performs only the upper-bound check
`len(a) > index` before the element access: on an array it returns the
element exactly for `0 ≤ i < len`, returns not-found for `i ≥ len` and for a
non-array node, but a negative index passes the guard and the access panics;
consequently the path `"arr[-1]"`, whose index token `Atoi` accepts, makes
`GetNode` panic instead of returning the not-found error. -/
theorem C10_getIndex_bounds :
    (∀ (xs : List Node) (i : Int),
      (∀ h : 0 ≤ i ∧ i.toNat < xs.length,
        Node.GetIndex (.arr xs) i = .ok (some (xs.get ⟨i.toNat, h.2⟩))) ∧
      ((xs.length : Int) ≤ i → Node.GetIndex (.arr xs) i = .ok none) ∧
      (i < 0 → Node.GetIndex (.arr xs) i = .error .indexOutOfRange)) ∧
    (∀ (j : Node) (i : Int), j.asArray = none → Node.GetIndex j i = .ok none) ∧
    (Atoi "-1".data = (-1, none) ∧ GetNode docIdx "arr[-1]" = .error .indexOutOfRange) := by
  refine ⟨fun xs i => ⟨?_, ?_, ?_⟩, fun j i hj => ?_, by decide, by decide⟩
  · intro h
    have hlt : i < (xs.length : Int) := by omega
    simp only [Node.GetIndex, if_pos hlt, dif_pos h]
  · intro h
    have hlt : ¬ i < (xs.length : Int) := by omega
    simp only [Node.GetIndex, if_neg hlt]
  · intro h
    have hlt : i < (xs.length : Int) := by omega
    have hno : ¬ (0 ≤ i ∧ i.toNat < xs.length) := by omega
    simp only [Node.GetIndex, if_pos hlt, dif_neg hno]
  · cases j with
    | arr a => simp [Node.asArray] at hj
    | null => rfl
    | bool b => rfl
    | str s => rfl
    | num s => rfl
    | obj m => rfl

/-- Witness for C10 at concrete inputs. -/
theorem C10_getIndex_bounds_witness :
    Node.GetIndex (.arr [.num "10", .num "20"]) 1 = .ok (some (.num "20")) ∧
    Node.GetIndex (.arr [.num "10", .num "20"]) 2 = .ok none ∧
    Node.GetIndex (.arr [.num "10", .num "20"]) (-1) = .error .indexOutOfRange ∧
    Node.GetIndex (.str "s") 0 = .ok none := by
  refine ⟨?_, ?_, ?_, ?_⟩
  · exact ((C10_getIndex_bounds.1 [.num "10", .num "20"] 1).1 (by decide))
  · exact ((C10_getIndex_bounds.1 [.num "10", .num "20"] 2).2.1 (by decide))
  · exact ((C10_getIndex_bounds.1 [.num "10", .num "20"] (-1)).2.2 (by decide))
  · exact (C10_getIndex_bounds.2.1 (.str "s") 0 (by decide))

/-- A step that fails softly at a node: a missing key (or a key applied to a
non-object), or an index at/past the end of an array (or an index applied to
a non-array).  A negative index on an array is NOT a soft failure — it
panics (see C10). -/
def softFail (j : Node) : Step → Prop
  | .key k => j.GetKey k = none
  | .idx i =>
    match j with
    | .arr a => (a.length : Int) ≤ i
    | _ => True

instance : ∀ (j : Node) (s : Step), Decidable (softFail j s)
  | j, .key k => inferInstanceAs (Decidable (j.GetKey k = none))
  | .arr a, .idx i => inferInstanceAs (Decidable ((a.length : Int) ≤ i))
  | .null, .idx _ => .isTrue trivial
  | .bool _, .idx _ => .isTrue trivial
  | .str _, .idx _ => .isTrue trivial
  | .num _, .idx _ => .isTrue trivial
  | .obj _, .idx _ => .isTrue trivial

theorem softFail_idx {j : Node} {i : Int} (h : softFail j (.idx i)) :
    j.GetIndex i = .ok none := by
  cases j with
  | arr a =>
    have hle : (a.length : Int) ≤ i := h
    simp only [Node.GetIndex]
    rw [if_neg (by omega)]
  | null => rfl
  | bool b => rfl
  | str s => rfl
  | num s => rfl
  | obj m => rfl

theorem checkGet_prefix_fail : ∀ (branch : List Step) (j : Node) (k : Nat)
    (jk : Node) (step : Step),
    branch.get? k = some step →
    Node.CheckGet j (branch.take k) = .ok (some jk) →
    softFail jk step →
    Node.CheckGet j branch = .ok none := by
  intro branch
  induction branch with
  | nil => intro j k jk step hget _ _; simp at hget
  | cons s rest ih =>
    intro j k jk step hget htake hfail
    cases k with
    | zero =>
      have hj : j = jk := by simpa [Node.CheckGet] using htake
      subst hj
      have hs : s = step := by simpa using hget
      subst hs
      cases s with
      | key ky =>
        have hk : j.GetKey ky = none := hfail
        simp [Node.CheckGet, hk]
      | idx i =>
        have hk : j.GetIndex i = .ok none := softFail_idx hfail
        simp [Node.CheckGet, hk]
    | succ k' =>
      have hget' : rest.get? k' = some step := by simpa using hget
      simp only [List.take] at htake
      cases s with
      | key ky =>
        cases hk : j.GetKey ky with
        | none =>
          rw [show Node.CheckGet j (Step.key ky :: rest.take k') = .ok none by
            simp [Node.CheckGet, hk]] at htake
          simp at htake
        | some j1 =>
          rw [show Node.CheckGet j (Step.key ky :: rest.take k') =
              Node.CheckGet j1 (rest.take k') by simp [Node.CheckGet, hk]] at htake
          have hrec := ih j1 k' _ _ hget' htake hfail
          simp [Node.CheckGet, hk, hrec]
      | idx i =>
        cases hk : j.GetIndex i with
        | error p =>
          rw [show Node.CheckGet j (Step.idx i :: rest.take k') = .error p by
            simp [Node.CheckGet, hk]] at htake
          simp at htake
        | ok o =>
          cases o with
          | none =>
            rw [show Node.CheckGet j (Step.idx i :: rest.take k') = .ok none by
              simp [Node.CheckGet, hk]] at htake
            simp at htake
          | some j1 =>
            rw [show Node.CheckGet j (Step.idx i :: rest.take k') =
                Node.CheckGet j1 (rest.take k') by simp [Node.CheckGet, hk]] at htake
            have hrec := ih j1 k' _ _ hget' htake hfail
            simp [Node.CheckGet, hk, hrec]

/-- Claim C6: whenever an access branch reaches a softly failing step (a
missing key, an index at/past the end of an array, or a container-kind
mismatch), `CheckGet` reports not-found and `Get` returns the designated nil
node (`Node.null`, the Go `&Node\x7bnil\x7d`) rather than a nil pointer, so chained
navigation cannot fail with a missing-receiver error; and every coercion
applied to the nil node returns its zero value together with an explicit
wrong-kind error instead of aborting. -/
theorem C6_nilnode_chain :
    (∀ (j : Node) (branch : List Step) (k : Nat) (jk : Node) (step : Step),
      branch.get? k = some step →
      Node.CheckGet j (branch.take k) = .ok (some jk) →
      softFail jk step →
      Node.CheckGet j branch = .ok none ∧ Node.Get j branch = .ok .null) ∧
    Node.asString .null = ("", some (.typeAssertionFailed "string")) ∧
    Node.asInt .null = (0, some .invalidValueType) ∧
    Node.asInt64 .null = (0, some .invalidValueType) ∧
    Node.asUint64 .null = (0, some .invalidValueType) ∧
    Node.asFloat64Err .null = some .invalidValueType ∧
    Node.asBool .null = (false, some (.typeAssertionFailed "bool")) ∧
    Node.asMap .null = none ∧
    Node.asArray .null = none := by
  refine ⟨fun j branch k jk step hget htake hfail => ?_, rfl, rfl, rfl, rfl, rfl, rfl, rfl, rfl⟩
  have hcg := checkGet_prefix_fail branch j k jk step hget htake hfail
  exact ⟨hcg, by simp [Node.Get, hcg]⟩

/-- Witness for C6: a two-step branch whose first key is missing. -/
theorem C6_nilnode_chain_witness :
    ([Step.key "b", Step.key "c"].get? 0 = some (Step.key "b") ∧
      Node.CheckGet (.obj [("a", .num "1")]) ([Step.key "b", Step.key "c"].take 0) =
        .ok (some (.obj [("a", .num "1")])) ∧
      softFail (.obj [("a", .num "1")]) (.key "b")) ∧
    Node.CheckGet (.obj [("a", .num "1")]) [Step.key "b", Step.key "c"] = .ok none ∧
    Node.Get (.obj [("a", .num "1")]) [Step.key "b", Step.key "c"] = .ok .null :=
  ⟨⟨by decide, by decide, by decide⟩,
    C6_nilnode_chain.1 (.obj [("a", .num "1")]) [Step.key "b", Step.key "c"] 0
      (.obj [("a", .num "1")]) (.key "b") (by decide) (by decide) (by decide)⟩

theorem nodeAt_setPathMap : ∀ (bs : List String) (m : List (String × Node)) (v : Node),
    bs ≠ [] → nodeAt (.obj (setPathMap m bs v)) (bs.map .key) = some v := by
  intro bs
  induction bs with
  | nil => intro m v h; exact absurd rfl h
  | cons b rest ih =>
    intro m v _
    cases rest with
    | nil =>
      simp only [setPathMap, List.map, nodeAt, Node.GetKey, mapGet_mapSet_self]
    | cons b' rest' =>
      simp only [setPathMap, List.map, nodeAt, Node.GetKey, mapGet_mapSet_self]
      exact ih _ v (by simp)

/-- Claim C5: `SetPath` with an empty branch replaces the wrapped value
outright; with a non-empty branch it walks/creates nested objects (replacing
a non-object encountered along the way with a fresh empty object) and
assigns the value at the final segment, so the value is afterwards readable
along the branch; `setPath(["a","b"], v)` on an empty object produces
`\x7b"a":\x7b"b":v\x7d\x7d` and a following `setPath(["a","c"], v2)` preserves the
sibling `"b"`. -/
theorem C5_setPath_spec :
    (∀ (j v : Node), Node.SetPath j [] v = v) ∧
    (∀ (j v : Node) (branch : List String), branch ≠ [] →
      nodeAt (Node.SetPath j branch v) (branch.map .key) = some v) ∧
    (∀ (m : List (String × Node)) (b : String) (bs : List String) (v : Node),
      bs ≠ [] → (∀ m', mapGet m b ≠ some (.obj m')) →
      setPathMap m (b :: bs) v = mapSet m b (.obj (setPathMap [] bs v))) ∧
    (∀ v : Node, Node.SetPath (.obj []) ["a", "b"] v = .obj [("a", .obj [("b", v)])]) ∧
    (∀ v v2 : Node,
      Node.SetPath (Node.SetPath (.obj []) ["a", "b"] v) ["a", "c"] v2 =
        .obj [("a", .obj [("b", v), ("c", v2)])]) := by
  refine ⟨fun j v => rfl, ?_, ?_, fun v => rfl, ?_⟩
  · intro j v branch hne
    cases branch with
    | nil => exact absurd rfl hne
    | cons b rest =>
      simp only [Node.SetPath]
      exact nodeAt_setPathMap (b :: rest) _ v (by simp)
  · intro m b bs v hbs hno
    cases bs with
    | nil => exact absurd rfl hbs
    | cons b' rest =>
      have hsub : subMapOf m b = [] := by
        unfold subMapOf
        cases hm : mapGet m b with
        | none => rfl
        | some w =>
          cases w with
          | obj m' => exact absurd hm (hno m')
          | null => rfl
          | bool x => rfl
          | str x => rfl
          | num x => rfl
          | arr x => rfl
      simp only [setPathMap, hsub]
  · intro v v2
    show Node.SetPath (.obj [("a", .obj [("b", v)])]) ["a", "c"] v2 = _
    have h1 : strLt "c" "b" = false := by decide
    have h2 : strLt "a" "a" = false := by decide
    have h3 : ("c" : String) ≠ "b" := by decide
    simp [Node.SetPath, setPathMap, mapGet, mapSet, h1, h2, h3]

/-- Witness for C5 at concrete inputs. -/
theorem C5_setPath_spec_witness :
    (nodeAt (Node.SetPath (.str "s") ["p", "q"] (.num "9")) [.key "p", .key "q"] =
      some (.num "9")) ∧
    (setPathMap [("p", .num "7")] ["p", "q"] (.num "9") =
      mapSet [("p", .num "7")] "p" (.obj (setPathMap [] ["q"] (.num "9")))) :=
  ⟨C5_setPath_spec.2.1 (.str "s") (.num "9") ["p", "q"] (by decide),
   C5_setPath_spec.2.2.1 [("p", .num "7")] "p" ["q"] (.num "9") (by decide)
     (by intro m' h; simp [mapGet] at h)⟩

/-- Concrete document `\x7b"arr":[\x7b"x":42\x7d]\x7d` for the C4 counterexample. -/
def docX : Node := .obj [("arr", .arr [.obj [("x", .num "42")]])]

/-- Concrete document `\x7b"arr":[\x7b"k":7\x7d]\x7d` for the C4 amended claim. -/
def docK : Node := .obj [("arr", .arr [.obj [("k", .num "7")]])]

/-- Counterexample to claim C4: at a deeper position (after an index
segment) the literal segment `x` is NOT treated as an ordinary field name.
In `\x7b"arr":[\x7b"x":42\x7d]\x7d`, resolving `"arr[0].x"` consumes the deep `x` as
"stay at the current node": the resolver returns the parent object itself
with the `ErrSpecificNode` sentinel (so `GetNode` fails), even though a field
named `x` exists there and ordinary field treatment would return its value
`42`. -/
theorem C4_counterexample :
    jsonpathT docX "arr[0].x".data [] =
      .ok (.obj [("x", .num "42")], [.key "arr", .idx 0], [], some .specificNode) ∧
    Node.Get1 (.obj [("x", .num "42")]) "x" = .num "42" ∧
    GetNode docX "arr[0].x" = .ok (.error .specificNode) := by decide

/-- Claim C4 (amended): the literal segment `x` is consumed as "stay at the
current node" whenever it is the leading segment of the remaining path, at
every recursion depth of the resolver — not only at the top level.  In
particular, after a bracketed index segment a following `.x` is skipped, as
the concrete resolution of `"arr[0].x.k"` (which reaches the field `k` of
the array element without ever looking `x` up) shows. -/
theorem C4_amended_x_skip :
    (∀ (js : Node) (rest : List Char) (trace : List Step),
      jsonpathT js ('x' :: '.' :: rest) trace = jsonpathT js rest trace) ∧
    (∀ (js : Node) (trace : List Step),
      jsonpathT js ['x'] trace = jsonpathT js [] trace) ∧
    GetNode docK "arr[0].x.k" = .ok (.ok (.num "7")) := by
  refine ⟨?_, fun js trace => rfl, by decide⟩
  intro js rest trace
  have hsplit : splitDot ('x' :: '.' :: rest) = (['x'], rest) := by
    simp [splitDot, splitFirst]
  show jsonpathF (('x' :: '.' :: rest).length + 1) js ('x' :: '.' :: rest) trace = _
  have hlen : ('x' :: '.' :: rest).length + 1 = (rest.length + 2) + 1 := by simp
  rw [hlen]
  rw [jsonpathF]
  rw [if_neg (by simp), hsplit]
  rw [if_pos rfl]
  exact jsonpathF_fuel _ _ js rest trace (by omega) (by omega)

/-- Witness for the amended C4 at a concrete deep position. -/
theorem C4_amended_x_skip_witness :
    jsonpathT docK ('x' :: '.' :: "arr[0].k".data) [] =
      jsonpathT docK "arr[0].k".data [] :=
  C4_amended_x_skip.1 docK "arr[0].k".data []

/-- Counterexample to claim C7: for the document `\x7b"a":1\x7d` the path `"a"`
resolves to an existing non-string node, the string coercion on that node
fails, yet `GetString` returns the zero string with a nil error — the
coercion failure is silently swallowed, not reported. -/
theorem C7_counterexample :
    GetNode (.obj [("a", .num "1")]) "a" = .ok (.ok (.num "1")) ∧
    (Node.asString (.num "1")).2 = some (.typeAssertionFailed "string") ∧
    GetString (.obj [("a", .num "1")]) "a" = .ok ("", none) := by decide

/-- Claim C7 (amended): `GetString` propagates path-resolution errors from
`GetNode`, but whenever the path resolves to an existing node it returns the
string part of the coercion with a nil error, swallowing any coercion
failure; the spec's propagation policy does not hold for `GetString`. -/
theorem C7_amended_getString :
    ∀ (root : Node) (path : String) (node : Node),
      GetNode root path = .ok (.ok node) →
      GetString root path = .ok ((node.asString).1, none) := by
  intro root path node h
  simp [GetString, h]

/-- Witness for the amended C7. -/
theorem C7_amended_getString_witness :
    GetNode (.obj [("b", .bool true)]) "b" = .ok (.ok (.bool true)) ∧
    GetString (.obj [("b", .bool true)]) "b" =
      .ok ((Node.asString (.bool true)).1, none) :=
  ⟨by decide, C7_amended_getString (.obj [("b", .bool true)]) "b" (.bool true) (by decide)⟩

/-- Counterexample to claim C8: `Int` on a node holding the parsed
floating-point number `5.1` (a `json.Number`) does not return the truncated
integer 5 with no error — `json.Number.Int64` rejects the token and the call
returns `(0, error)`. -/
theorem C8_counterexample :
    Node.asInt (.num "5.1") = (0, some .syntaxErr) := by decide

theorem all_imp {p q : Char → Bool} (himp : ∀ c, p c = true → q c = true) :
    ∀ {l : List Char}, l.all p = true → l.all q = true := by
  intro l h
  simp only [List.all_eq_true] at h ⊢
  exact fun c hc => himp c (h c hc)

theorem takeWhile_append_of_all {p : Char → Bool} :
    ∀ {a b : List Char}, a.all p = true → (a ++ b).takeWhile p = a ++ b.takeWhile p := by
  intro a
  induction a with
  | nil => intro b _; rfl
  | cons c rest ih =>
    intro b h
    simp only [List.all_cons, Bool.and_eq_true] at h
    simp only [List.cons_append, List.takeWhile_cons, h.1, if_true, ih h.2]

theorem dropWhile_append_of_all {p : Char → Bool} :
    ∀ {a b : List Char}, a.all p = true → (a ++ b).dropWhile p = b.dropWhile p := by
  intro a
  induction a with
  | nil => intro b _; rfl
  | cons c rest ih =>
    intro b h
    simp only [List.all_cons, Bool.and_eq_true] at h
    simp only [List.cons_append, List.dropWhile_cons, h.1, if_true, ih h.2]

theorem takeWhile_cons_false {p : Char → Bool} {c : Char} {l : List Char}
    (h : p c = false) : (c :: l).takeWhile p = [] := by
  simp [List.takeWhile_cons, h]

theorem dropWhile_cons_false {p : Char → Bool} {c : Char} {l : List Char}
    (h : p c = false) : (c :: l).dropWhile p = c :: l := by
  simp [List.dropWhile_cons, h]

theorem count_dot_of_digits : ∀ {ds : List Char}, ds.all isDig = true →
    ds.count '.' = 0 := by
  intro ds h
  induction ds with
  | nil => rfl
  | cons c rest ih =>
    simp only [List.all_cons, Bool.and_eq_true] at h
    have hc : c ≠ '.' := by
      intro he; subst he; simp [isDig, Char.isDigit] at h
    rw [List.count_cons]
    simp [hc, ih h.2]

theorem isDig_dot_or : ∀ c, isDig c = true → (isDig c || c = '.') = true := by
  intro c h; simp [h]

/-- The digit/dot mantissa and exponent checks hold for any list of the form
`intDigits ++ fractail` accepted by the number grammar. -/
theorem goFloatCore_of_parts : ∀ (ip fr : List Char), ip ≠ [] → ip.all isDig = true →
    numFracTail fr = true → goFloatCore (ip ++ fr) = true := by
  intro ip fr hne hip hfr
  have hipq : ip.all (fun c => isDig c || c = '.') = true := all_imp isDig_dot_or hip
  have hany : ip.any isDig = true := by
    cases ip with
    | nil => exact absurd rfl hne
    | cons c rest =>
      simp only [List.all_cons, Bool.and_eq_true] at hip
      simp [hip.1]
  unfold goFloatCore
  rw [takeWhile_append_of_all hipq, dropWhile_append_of_all hipq]
  rw [List.count_append, count_dot_of_digits hip]
  cases fr with
  | nil =>
    simp [hany, numExpTail]
  | cons c₁ fr₁ =>
    by_cases hdot : c₁ = '.'
    · subst hdot
      rw [numFracTail] at hfr
      rw [if_pos rfl] at hfr
      simp only [Bool.and_eq_true] at hfr
      obtain ⟨hds, hexp⟩ := hfr
      have hdig : (fr₁.takeWhile isDig).all isDig = true := by
        simp only [List.all_eq_true]
        exact fun c hc => List.mem_takeWhile_imp hc
      have hdsq : (fr₁.takeWhile isDig).all (fun c => isDig c || c = '.') = true :=
        all_imp isDig_dot_or hdig
      have hsplit : fr₁.takeWhile isDig ++ fr₁.dropWhile isDig = fr₁ :=
        List.takeWhile_append_dropWhile isDig fr₁
      rw [List.takeWhile_cons, List.dropWhile_cons]
      have hq : (isDig '.' || '.' = '.') = true := by decide
      rw [hq]
      simp only [if_pos rfl]
      conv_lhs => rw [← hsplit]
      rw [takeWhile_append_of_all hdsq, dropWhile_append_of_all hdsq]
      cases her : fr₁.dropWhile isDig with
      | nil =>
        simp only [her] at hexp ⊢
        simp [List.any_append, hany, List.count_append, count_dot_of_digits hdig,
          List.count_cons, numExpTail]
      | cons e er' =>
        rw [her] at hexp
        rw [numExpTail] at hexp
        simp only [Bool.and_eq_true, Bool.or_eq_true, decide_eq_true_eq] at hexp
        have hqe : (isDig e || e = '.') = false := by
          rcases hexp.1 with he | he <;> subst he <;> decide
        rw [takeWhile_cons_false hqe, dropWhile_cons_false hqe]
        have : numExpTail (e :: er') = true := by
          rw [numExpTail]
          simp only [Bool.and_eq_true, Bool.or_eq_true, decide_eq_true_eq]
          exact hexp
        simp [List.any_append, hany, List.count_append, count_dot_of_digits hdig,
          List.count_cons, this]
    · rw [numFracTail] at hfr
      rw [if_neg hdot] at hfr
      have hexp := hfr
      rw [numExpTail] at hexp
      simp only [Bool.and_eq_true, Bool.or_eq_true, decide_eq_true_eq] at hexp
      have hqe : (isDig c₁ || c₁ = '.') = false := by
        rcases hexp.1 with he | he <;> subst he <;> decide
      rw [takeWhile_cons_false hqe, dropWhile_cons_false hqe]
      simp [hany, hfr]

theorem numTokBody_goFloatCore : ∀ t, numTokBody t = true → goFloatCore t = true := by
  intro t h
  cases t with
  | nil => simp [numTokBody] at h
  | cons c r =>
    rw [numTokBody] at h
    by_cases hc : c = '0'
    · rw [if_pos hc] at h
      subst hc
      exact goFloatCore_of_parts ['0'] r (by decide) (by decide) h
    · rw [if_neg hc] at h
      simp only [Bool.and_eq_true] at h
      have hsplit : (c :: r.takeWhile isDig) ++ r.dropWhile isDig = c :: r := by
        rw [List.cons_append, List.takeWhile_append_dropWhile isDig r]
      rw [← hsplit]
      refine goFloatCore_of_parts _ _ (by simp) ?_ h.2
      simp only [List.all_cons, Bool.and_eq_true]
      refine ⟨h.1, ?_⟩
      simp only [List.all_eq_true]
      exact fun x hx => List.mem_takeWhile_imp hx

/-- Every token of the JSON number grammar is accepted by the `ParseFloat`
model. -/
theorem numTok_goFloat : ∀ l, numTok l = true → goFloatSyntaxOk l = true := by
  intro l h
  rw [numTok] at h
  unfold goFloatSyntaxOk
  cases l with
  | nil => simp [stripNeg, numTokBody] at h
  | cons c0 r0 =>
    by_cases hneg : c0 = '-'
    · subst hneg
      rw [show stripNeg ('-' :: r0) = r0 by simp [stripNeg]] at h
      rw [show (stripIntSign ('-' :: r0)).2 = r0 by simp [stripIntSign]]
      exact numTokBody_goFloatCore r0 h
    · rw [show stripNeg (c0 :: r0) = c0 :: r0 by simp [stripNeg, hneg]] at h
      have hplus : c0 ≠ '+' := by
        rw [numTokBody] at h
        by_cases hc : c0 = '0'
        · subst hc; decide
        · rw [if_neg hc] at h
          simp only [Bool.and_eq_true] at h
          intro he; subst he
          exact absurd h.1 (by decide)
      rw [show (stripIntSign (c0 :: r0)).2 = c0 :: r0 by
        simp [stripIntSign, hneg, hplus]]
      exact numTokBody_goFloatCore _ h

theorem all_false_of_contains {ch : Char} {ds : List Char} (h : containsC ch ds = true)
    (hch : Char.isDigit ch = false) : ds.all Char.isDigit = false := by
  have hex : ∃ c ∈ ds, c = ch := by simpa [containsC, List.any_eq_true] using h
  rcases hex with ⟨c, hc, rfl⟩
  cases hall : ds.all Char.isDigit with
  | false => rfl
  | true =>
    exfalso
    have := (List.all_eq_true.mp hall) _ hc
    rw [hch] at this
    exact absurd this (by simp)

theorem parseInt64_err_of_contains {ch : Char} {l : List Char} (h : containsC ch l = true)
    (hch : Char.isDigit ch = false) (hm : ch ≠ '-') (hp : ch ≠ '+') :
    parseInt64 l = (0, some .syntaxErr) := by
  have hds : containsC ch (stripIntSign l).2 = true := by
    cases l with
    | nil => simp [containsC] at h
    | cons c0 r0 =>
      unfold stripIntSign
      by_cases h1 : c0 = '-'
      · subst h1
        simp only [if_pos rfl]
        have h' : ('-' = ch) ∨ containsC ch r0 = true := by
          simpa [containsC, List.any_cons] using h
        rcases h' with he | h'
        · exact absurd he.symm hm
        · exact h'
      · by_cases h2 : c0 = '+'
        · subst h2
          simp only [if_neg (show ('+' : Char) ≠ '-' by decide), if_pos rfl]
          have h' : ('+' = ch) ∨ containsC ch r0 = true := by
            simpa [containsC, List.any_cons] using h
          rcases h' with he | h'
          · exact absurd he.symm hp
          · exact h'
        · simp only [if_neg h1, if_neg h2]
          exact h
  have hall := all_false_of_contains hds hch
  unfold parseInt64
  rw [if_pos (Or.inr (by simp [hall]))]

set_option maxRecDepth 8192 in
/-- Claim C8 (amended): numeric coercions on parsed numbers (`json.Number`)
do not silently narrow.  `Float64` succeeds on every token of the JSON
number grammar whose magnitude stays below the `float64` overflow bound and
returns an explicit range error (never a silent clamp) on a token at or
above it, such as `1e400`; `Int`/`Int64` succeed on decimal-integer tokens
within range, with the parsed value; any token containing a fraction dot or
an exponent makes `Int`/`Int64` fail with an error (no truncation), and a
leading minus makes `Uint64` fail; in particular on `5.1` the integer
coercions return `(0, error)` while `Float64` succeeds. -/
theorem C8_amended_numeric :
    (∀ l : List Char, numTok l = true →
      (floatTooBig (stripIntSign l).2 = false →
        Node.asFloat64Err (.num (String.mk l)) = none) ∧
      (floatTooBig (stripIntSign l).2 = true →
        Node.asFloat64Err (.num (String.mk l)) = some .rangeErr)) ∧
    (∀ ds : List Char, ds ≠ [] → ds.all Char.isDigit = true →
      ((digitsVal ds < 2 ^ 63 →
        Node.asInt (.num (String.mk ds)) = ((digitsVal ds : Int), none) ∧
        Node.asInt64 (.num (String.mk ds)) = ((digitsVal ds : Int), none)) ∧
       (digitsVal ds ≤ 2 ^ 63 →
        Node.asInt (.num (String.mk ('-' :: ds))) = (-(digitsVal ds : Int), none)) ∧
       (digitsVal ds < 2 ^ 64 →
        Node.asUint64 (.num (String.mk ds)) = (digitsVal ds, none)))) ∧
    (∀ l : List Char, (containsC '.' l || containsC 'e' l || containsC 'E' l) = true →
      (Node.asInt (.num (String.mk l))).2 = some .syntaxErr ∧
      (Node.asInt64 (.num (String.mk l))).2 = some .syntaxErr) ∧
    (∀ r : List Char, (Node.asUint64 (.num (String.mk ('-' :: r)))).2 = some .syntaxErr) ∧
    (Node.asInt (.num "5.1") = (0, some .syntaxErr) ∧
      Node.asInt64 (.num "5.1") = (0, some .syntaxErr) ∧
      Node.asFloat64Err (.num "5.1") = none ∧
      Node.asFloat64Err (.num "1e400") = some .rangeErr) := by
  refine ⟨?_, ?_, ?_, ?_, by decide, by decide, by decide, by decide⟩
  · intro l h
    have hsyn := numTok_goFloat l h
    constructor
    · intro hr
      simp [Node.asFloat64Err, hsyn, hr]
    · intro hr
      simp [Node.asFloat64Err, hsyn, hr]
  · intro ds hne hall
    have hstrip : stripIntSign ds = (false, ds) := by
      cases ds with
      | nil => exact absurd rfl hne
      | cons d rest =>
        have hd : Char.isDigit d = true := by
          have := List.all_eq_true.mp hall d (by simp)
          simpa using this
        have h1 : d ≠ '-' := by intro he; subst he; exact absurd hd (by decide)
        have h2 : d ≠ '+' := by intro he; subst he; exact absurd hd (by decide)
        simp [stripIntSign, h1, h2]
    have hstripneg : stripIntSign ('-' :: ds) = (true, ds) := by simp [stripIntSign]
    have hcond : ¬ (ds = [] ∨ ¬ (ds.all Char.isDigit = true)) := by
      intro hh
      rcases hh with hh | hh
      · exact hne hh
      · exact hh hall
    refine ⟨fun hr => ?_, fun hr => ?_, fun hr => ?_⟩
    · constructor
      · show parseInt64 ds = _
        unfold parseInt64
        rw [hstrip]
        rw [if_neg hcond, if_neg (by simp), if_pos hr]
      · show parseInt64 ds = _
        unfold parseInt64
        rw [hstrip]
        rw [if_neg hcond, if_neg (by simp), if_pos hr]
    · show parseInt64 ('-' :: ds) = _
      unfold parseInt64
      rw [hstripneg]
      rw [if_neg hcond, if_pos (by simp), if_pos hr]
    · show parseUint64 ds = _
      unfold parseUint64
      rw [if_neg hcond, if_pos hr]
  · intro l h
    simp only [Bool.or_eq_true] at h
    have herr : parseInt64 l = (0, some .syntaxErr) := by
      rcases h with (h | h) | h
      · exact parseInt64_err_of_contains h (by decide) (by decide) (by decide)
      · exact parseInt64_err_of_contains h (by decide) (by decide) (by decide)
      · exact parseInt64_err_of_contains h (by decide) (by decide) (by decide)
    constructor
    · show (parseInt64 l).2 = _
      rw [herr]
    · show (parseInt64 l).2 = _
      rw [herr]
  · intro r
    have hall : (('-' :: r).all Char.isDigit) = false := by
      simp [List.all_cons, show Char.isDigit '-' = false by decide]
    show (parseUint64 ('-' :: r)).2 = _
    unfold parseUint64
    rw [if_pos (Or.inr (by simp [hall]))]

set_option maxRecDepth 8192 in
/-- Witness for the amended C8. -/
theorem C8_amended_numeric_witness :
    numTok "2.5e3".data = true ∧
    Node.asFloat64Err (.num (String.mk "2.5e3".data)) = none ∧
    Node.asFloat64Err (.num (String.mk "1e400".data)) = some .rangeErr ∧
    Node.asInt (.num (String.mk "42".data)) = ((digitsVal "42".data : Int), none) ∧
    Node.asInt (.num (String.mk ('-' :: "42".data))) = (-(digitsVal "42".data : Int), none) ∧
    Node.asUint64 (.num (String.mk "42".data)) = (digitsVal "42".data, none) ∧
    (Node.asInt (.num (String.mk "1e9".data))).2 = some .syntaxErr ∧
    (Node.asUint64 (.num (String.mk ('-' :: "3".data)))).2 = some .syntaxErr :=
  ⟨by decide,
   (C8_amended_numeric.1 "2.5e3".data (by decide)).1 (by decide),
   (C8_amended_numeric.1 "1e400".data (by decide)).2 (by decide),
   ((C8_amended_numeric.2.1 "42".data (by decide) (by decide)).1 (by decide)).1,
   (C8_amended_numeric.2.1 "42".data (by decide) (by decide)).2.1 (by decide),
   (C8_amended_numeric.2.1 "42".data (by decide) (by decide)).2.2 (by decide),
   (C8_amended_numeric.2.2.1 "1e9".data (by decide)).1,
   C8_amended_numeric.2.2.2.1 "3".data⟩

theorem containsC_cons_false {sep c : Char} {rest : List Char}
    (h : containsC sep (c :: rest) = false) : ¬ (c = sep) ∧ containsC sep rest = false := by
  simp only [containsC, List.any_cons, Bool.or_eq_false_iff] at h
  exact ⟨by simpa using h.1, h.2⟩

theorem splitFirst_append {sep : Char} : ∀ {a : List Char} (b : List Char),
    containsC sep a = false → splitFirst sep (a ++ sep :: b) = some (a, b) := by
  intro a
  induction a with
  | nil => intro b _; simp [splitFirst]
  | cons c rest ih =>
    intro b h
    obtain ⟨hc, h'⟩ := containsC_cons_false h
    simp only [List.cons_append, splitFirst, if_neg hc, List.append_eq, ih b h', Option.map]

theorem segFields_eq {name tok : List Char} (hname : containsC '[' name = false) :
    segFields (name ++ '[' :: (tok ++ [']'])) = (name, tok ++ [']']) := by
  unfold segFields
  rw [splitFirst_append _ hname]

theorem segTok_eq {name tok : List Char} (hname : containsC '[' name = false)
    (htok : containsC ']' tok = false) :
    segTok (name ++ '[' :: (tok ++ [']'])) = tok := by
  unfold segTok
  rw [segFields_eq hname]
  rw [show tok ++ [']'] = tok ++ ']' :: [] from rfl, splitFirst_append [] htok]

theorem seg_contains_brackets (name tok : List Char) :
    containsC '[' (name ++ '[' :: (tok ++ [']'])) = true ∧
    containsC ']' (name ++ '[' :: (tok ++ [']'])) = true := by
  constructor
  · simp [containsC, List.any_append, List.any_cons]
  · simp [containsC, List.any_append, List.any_cons]

theorem seg_ne_x {name tok : List Char} :
    name ++ '[' :: (tok ++ [']']) ≠ ['x'] := by
  intro he
  have h1 := (seg_contains_brackets name tok).1
  rw [he] at h1
  exact absurd h1 (by decide)

theorem splitDot_ne_nil_of_seg {path name tok : List Char}
    (hseg : (splitDot path).1 = name ++ '[' :: (tok ++ [']'])) : path ≠ [] := by
  intro he
  rw [he] at hseg
  have : ([] : List Char) = name ++ '[' :: (tok ++ [']']) := by
    simpa [splitDot, splitFirst] using hseg
  exact absurd this.symm (by simp)

theorem New_error {b : List Char} {e : GoErr} (h : New b = .error e) : e = .parseError := by
  unfold New at h
  cases hp : pVal b with
  | none => rw [hp] at h; cases h; rfl
  | some p => rw [hp] at h; cases h

/-- Claim C3: the path resolver's failure modes.  A bracketed index token
that `Atoi` rejects yields the explicit invalid-index error naming the bad
token; an in-range-parse but at-or-past-the-end index on the resolved array
yields the explicit could-not-find-index error naming the token; trailing
unconsumed path text after a plain segment (in particular after reaching a
leaf) yields the explicit left-unparsed error; the empty path returns the
current node with the `ErrSpecificNode` sentinel; and the mutation callers
`SetString` and `AddJSON` never propagate that sentinel — they treat it as
success. -/
theorem C3_jsonpath_failure_modes :
    (∀ (js : Node) (path : List Char) (trace : List Step) (name tok : List Char) (e : GoErr),
      (splitDot path).1 = name ++ '[' :: (tok ++ [']']) →
      containsC '[' name = false → containsC ']' tok = false →
      (Atoi tok).2 = some e →
      ∃ n t, jsonpathT js path trace = .ok (n, t, path, some (.invalidIndex (String.mk tok)))) ∧
    (∀ (js : Node) (path : List Char) (trace : List Step) (name tok : List Char) (i : Int)
      (a : List Node),
      (splitDot path).1 = name ++ '[' :: (tok ++ [']']) →
      containsC '[' name = false → containsC ']' tok = false →
      Atoi tok = (i, none) →
      segJs1 js (splitDot path).1 = .arr a → (a.length : Int) ≤ i →
      ∃ n t, jsonpathT js path trace =
        .ok (n, t, path, some (.couldNotFindIndex (String.mk tok)))) ∧
    (∀ (js : Node) (path : List Char) (trace : List Step),
      (splitDot path).1 ≠ ['x'] →
      (containsC '[' (splitDot path).1 && containsC ']' (splitDot path).1) = false →
      (splitDot path).2 ≠ [] →
      jsonpathT js path trace =
        .ok (js, trace, path, some (.leftUnparsed (String.mk (splitDot path).2)))) ∧
    (∀ (js : Node) (trace : List Step),
      jsonpathT js [] trace = .ok (js, trace, [], some .specificNode)) ∧
    (∀ (root : Node) (path value : String) (r : MutationResult),
      SetString root path value = .ok r → r.err ≠ some .specificNode) ∧
    (∀ (root : Node) (path data : String) (r : MutationResult),
      AddJSON root path data = .ok r → r.err ≠ some .specificNode) := by
  refine ⟨?_, ?_, ?_, fun js trace => rfl, ?_, ?_⟩
  · intro js path trace name tok e hseg hname htok hA
    have hpne := splitDot_ne_nil_of_seg hseg
    have hbr := seg_contains_brackets name tok
    have hx : (splitDot path).1 ≠ ['x'] := by rw [hseg]; exact seg_ne_x
    have htokeq : segTok (splitDot path).1 = tok := by rw [hseg]; exact segTok_eq hname htok
    refine ⟨segJs1 js (splitDot path).1, segTrace1 trace (splitDot path).1, ?_⟩
    unfold jsonpathT
    simp only [jsonpathF]
    rw [if_neg hpne, if_neg hx,
      if_pos (show (containsC '[' (splitDot path).1 && containsC ']' (splitDot path).1) = true
        by rw [hseg]; simp [hbr.1, hbr.2, seg_contains_brackets])]
    rw [htokeq]
    cases hAtoi : Atoi tok with
    | mk i eo =>
      rw [hAtoi] at hA
      simp only at hA
      subst hA
      rfl
  · intro js path trace name tok i a hseg hname htok hA harr hlen
    have hpne := splitDot_ne_nil_of_seg hseg
    have hbr := seg_contains_brackets name tok
    have hx : (splitDot path).1 ≠ ['x'] := by rw [hseg]; exact seg_ne_x
    have htokeq : segTok (splitDot path).1 = tok := by rw [hseg]; exact segTok_eq hname htok
    refine ⟨segJs1 js (splitDot path).1, segTrace1 trace (splitDot path).1, ?_⟩
    unfold jsonpathT
    simp only [jsonpathF]
    rw [if_neg hpne, if_neg hx,
      if_pos (show (containsC '[' (splitDot path).1 && containsC ']' (splitDot path).1) = true
        by rw [hseg]; simp [hbr.1, hbr.2, seg_contains_brackets])]
    rw [htokeq]
    have hGI : (segJs1 js (splitDot path).1).GetIndex i = .ok none := by
      rw [harr]
      simp only [Node.GetIndex]
      rw [if_neg (by omega)]
    simp only [hA, hGI]
  · intro js path trace hx hbr h2
    have hpne : path ≠ [] := by
      intro he
      rw [he] at h2
      exact h2 (by simp [splitDot, splitFirst])
    unfold jsonpathT
    simp only [jsonpathF]
    rw [if_neg hpne, if_neg hx, if_neg (by simp [hbr]), if_pos h2]
  · intro root path value r h
    unfold SetString at h
    split at h
    · exact absurd h (by simp)
    · split at h
      · rename_i hcond
        cases h
        exact hcond.2
      · split at h
        · cases h
          simp
        · cases h
          simp
  · intro root path data r h
    unfold AddJSON at h
    split at h
    · exact absurd h (by simp)
    · split at h
      · rename_i hcond
        cases h
        exact hcond.2
      · split at h
        · cases h
          simp
        · split at h
          · rename_i hn
            cases h
            have := New_error hn
            subst this
            simp
          · cases h
            simp

/-- Witness for C3 at concrete inputs. -/
theorem C3_jsonpath_failure_modes_witness :
    (∃ n t, jsonpathT docIdx "arr[abc]".data [] =
      .ok (n, t, "arr[abc]".data, some (.invalidIndex (String.mk "abc".data)))) ∧
    (∃ n t, jsonpathT docIdx "arr[7]".data [] =
      .ok (n, t, "arr[7]".data, some (.couldNotFindIndex (String.mk "7".data)))) ∧
    jsonpathT docIdx "arr.k".data [] =
      .ok (docIdx, [], "arr.k".data, some (.leftUnparsed (String.mk "k".data))) ∧
    jsonpathT docIdx [] [] = .ok (docIdx, [], [], some .specificNode) := by
  refine ⟨?_, ?_, ?_, ?_⟩
  · exact C3_jsonpath_failure_modes.1 docIdx "arr[abc]".data [] "arr".data "abc".data
      .syntaxErr (by decide) (by decide) (by decide) (by decide)
  · exact C3_jsonpath_failure_modes.2.1 docIdx "arr[7]".data [] "arr".data "7".data 7
      [.num "10", .num "20"] (by decide) (by decide) (by decide) (by decide) (by decide)
      (by decide)
  · have h := C3_jsonpath_failure_modes.2.2.1 docIdx "arr.k".data [] (by decide) (by decide)
      (by decide)
    simpa using h
  · exact C3_jsonpath_failure_modes.2.2.2.1 docIdx []

theorem mapGet_mapModify_self {m : List (String × Node)} {k : String} {c : Node}
    (h : mapGet m k = some c) (g : Node → Node) :
    mapGet (mapModify m k g) k = some (g c) := by
  induction m with
  | nil => simp [mapGet] at h
  | cons e rest ih =>
    obtain ⟨k', v⟩ := e
    by_cases hk : k' = k
    · subst hk
      simp only [mapGet, if_pos rfl] at h
      cases h
      simp [mapModify, mapGet]
    · simp only [mapGet, if_neg hk] at h
      simp only [mapModify, if_neg hk, mapGet, if_neg hk]
      exact ih h

theorem nodeAt_setAtTrace : ∀ (tr : List Step) (root n : Node) (f : Node → Node),
    nodeAt root tr = some n → nodeAt (setAtTrace root tr f) tr = some (f n) := by
  intro tr
  induction tr with
  | nil =>
    intro root n f h
    simp only [nodeAt] at h
    cases h
    rfl
  | cons s rest ih =>
    intro root n f h
    cases s with
    | key k =>
      simp only [nodeAt] at h
      cases hg : root.GetKey k with
      | none => rw [hg] at h; cases h
      | some child =>
        rw [hg] at h
        have hobj : ∃ m, root = .obj m ∧ mapGet m k = some child := by
          cases root <;> simp [Node.GetKey] at hg <;> exact ⟨_, rfl, hg⟩
        obtain ⟨m, rfl, hm⟩ := hobj
        simp only [setAtTrace, nodeAt, Node.GetKey]
        rw [mapGet_mapModify_self hm]
        exact ih child n f h
    | idx i =>
      cases root with
      | arr a =>
        simp only [nodeAt] at h
        by_cases hb : 0 ≤ i ∧ i.toNat < a.length
        · rw [dif_pos hb] at h
          simp only [setAtTrace, dif_pos hb, nodeAt]
          have hlen : 0 ≤ i ∧ i.toNat < (a.set i.toNat (setAtTrace (a.get ⟨i.toNat, hb.2⟩) rest f)).length := by
            simpa [List.length_set] using hb
          rw [dif_pos hlen]
          have hget : (a.set i.toNat (setAtTrace (a.get ⟨i.toNat, hb.2⟩) rest f)).get
              ⟨i.toNat, hlen.2⟩ = setAtTrace (a.get ⟨i.toNat, hb.2⟩) rest f := by
            simp [List.get_set]
          rw [hget]
          exact ih _ n f h
        · rw [dif_neg hb] at h; cases h
      | null => simp [nodeAt] at h
      | bool b => simp [nodeAt] at h
      | str s => simp [nodeAt] at h
      | num s => simp [nodeAt] at h
      | obj m => simp [nodeAt] at h

theorem nodeAt_append : ∀ (t₁ t₂ : List Step) (root : Node),
    nodeAt root (t₁ ++ t₂) = (nodeAt root t₁).bind (fun n => nodeAt n t₂) := by
  intro t₁
  induction t₁ with
  | nil => intro t₂ root; rfl
  | cons s rest ih =>
    intro t₂ root
    cases s with
    | key k =>
      simp only [List.cons_append, nodeAt]
      cases root.GetKey k with
      | none => rfl
      | some child => exact ih t₂ child
    | idx i =>
      cases root with
      | arr a =>
        simp only [List.cons_append, nodeAt]
        by_cases hb : 0 ≤ i ∧ i.toNat < a.length
        · rw [dif_pos hb, dif_pos hb]
          exact ih t₂ _
        · rw [dif_neg hb, dif_neg hb]
          rfl
      | null => rfl
      | bool b => rfl
      | str s => rfl
      | num s => rfl
      | obj m => rfl

theorem getIndex_ok_some {js : Node} {i : Int} {x : Node}
    (h : Node.GetIndex js i = .ok (some x)) :
    ∃ (a : List Node) (hb : 0 ≤ i ∧ i.toNat < a.length),
      js = .arr a ∧ x = a.get ⟨i.toNat, hb.2⟩ := by
  cases js with
  | arr a =>
    simp only [Node.GetIndex] at h
    by_cases hlt : i < (a.length : Int)
    · rw [if_pos hlt] at h
      by_cases hb : 0 ≤ i ∧ i.toNat < a.length
      · rw [dif_pos hb] at h
        cases h
        exact ⟨a, hb, rfl, rfl⟩
      · rw [dif_neg hb] at h; cases h
    · rw [if_neg hlt] at h; cases h
  | null => cases h
  | bool b => cases h
  | str s => cases h
  | num s => cases h
  | obj m => cases h

theorem nodeAt_snoc_key {root js child : Node} {trace : List Step} {k : String}
    (hat : nodeAt root trace = some js) (hgk : js.GetKey k = some child) :
    nodeAt root (trace ++ [Step.key k]) = some child := by
  rw [nodeAt_append, hat]
  show nodeAt js [Step.key k] = some child
  simp [nodeAt, hgk]

theorem nodeAt_snoc_idx {root : Node} {a : List Node} {trace : List Step} {i : Int}
    (hat : nodeAt root trace = some (.arr a)) (hb : 0 ≤ i ∧ i.toNat < a.length) :
    nodeAt root (trace ++ [Step.idx i]) = some (a.get ⟨i.toNat, hb.2⟩) := by
  rw [nodeAt_append, hat]
  show nodeAt (.arr a) [Step.idx i] = some (a.get ⟨i.toNat, hb.2⟩)
  simp only [nodeAt]
  rw [dif_pos hb]

/-- Invariant justifying the ghost trace: whenever `jsonpathF` returns
without a true error, the returned node is either the nil node (a failed
`Get`) or the subtree of the root denoted by the returned trace.  This is
the pure counterpart of Go pointer aliasing: mutating the returned node's
map in place is mutating the root's subtree at the trace. -/
theorem jsonpath_trace_valid : ∀ (fuel : Nat) (js : Node) (path : List Char)
    (trace : List Step) (root node : Node) (tr : List Step) (lo : List Char)
    (eo : Option GoErr),
    nodeAt root trace = some js →
    jsonpathF fuel js path trace = .ok (node, tr, lo, eo) →
    (eo = none ∨ eo = some .specificNode) →
    node = .null ∨ nodeAt root tr = some node := by
  intro fuel
  induction fuel with
  | zero =>
    intro js path trace root node tr lo eo hat h heo
    simp only [jsonpathF] at h
    cases h
    exact Or.inr hat
  | succ fuel ih =>
    intro js path trace root node tr lo eo hat h heo
    simp only [jsonpathF] at h
    by_cases hp : path = []
    · rw [if_pos hp] at h
      cases h
      exact Or.inr hat
    · rw [if_neg hp] at h
      by_cases hx : (splitDot path).1 = ['x']
      · rw [if_pos hx] at h
        exact ih js _ trace root node tr lo eo hat h heo
      · rw [if_neg hx] at h
        by_cases hbr : (containsC '[' (splitDot path).1 &&
            containsC ']' (splitDot path).1) = true
        · rw [if_pos hbr] at h
          split at h
          · cases h
            rcases heo with he | he <;> simp at he
          · split at h
            · cases h
            · cases h
              rcases heo with he | he <;> simp at he
            · rename_i xp i heqA xg nodeNext heqGI
              obtain ⟨a, hb, harr, helem⟩ := getIndex_ok_some heqGI
              have hatNext : nodeAt root (segTrace1 trace (splitDot path).1 ++ [Step.idx i]) =
                  some nodeNext := by
                unfold segJs1 at harr
                unfold segTrace1
                by_cases hxn : (segFields (splitDot path).1).1 ≠ ['x']
                · rw [if_pos hxn] at harr
                  rw [if_pos hxn]
                  cases hgk : js.GetKey (String.mk (segFields (splitDot path).1).1) with
                  | none =>
                    rw [Node.Get1, hgk] at harr
                    cases harr
                  | some child =>
                    rw [Node.Get1, hgk] at harr
                    subst harr
                    have h1 := nodeAt_snoc_key hat hgk
                    rw [helem]
                    exact nodeAt_snoc_idx h1 hb
                · rw [if_neg hxn] at harr
                  rw [if_neg hxn]
                  subst harr
                  rw [helem]
                  exact nodeAt_snoc_idx hat hb
              exact ih nodeNext _ _ root node tr lo eo hatNext h heo
        · rw [if_neg hbr] at h
          by_cases h2 : (splitDot path).2 ≠ []
          · rw [if_pos h2] at h
            cases h
            rcases heo with he | he <;> simp at he
          · rw [if_neg h2] at h
            cases h
            cases hgk : js.GetKey (String.mk (splitDot path).1) with
            | none =>
              left
              rw [Node.Get1, hgk]
            | some child =>
              right
              rw [Node.Get1, hgk]
              exact nodeAt_snoc_key hat hgk

/-- Claim C1: `SetString` resolves all but the last path segment to obtain
the parent node (treating the `ErrSpecificNode` sentinel as success), and —
given that resolution — fails with the explicit could-not-set error exactly
when the final segment does not already exist as a key of that parent; on
rejection the document is unchanged and nothing is written; when the key
exists, its value is overwritten in place (other keys of the parent
untouched), the whole document is re-serialized with `EncodePretty`, and the
result is written to storage. -/
theorem C1_setString_replace :
    ∀ (root : Node) (path value : String) (node : Node) (trace : List Step)
      (lo : List Char) (eo : Option GoErr),
      jsonpathT root (splitLastDot path.data).1 [] = .ok (node, trace, lo, eo) →
      (eo = none ∨ eo = some .specificNode) →
      ∃ r, SetString root path value = .ok r ∧
        (r.err = some .couldNotSet ↔
          node.GetKey (String.mk (splitLastDot path.data).2) = none) ∧
        (node.GetKey (String.mk (splitLastDot path.data).2) = none →
          r = ⟨some .couldNotSet, root, none⟩) ∧
        (∀ x, node.GetKey (String.mk (splitLastDot path.data).2) = some x →
          r.err = none ∧
          r.root = setAtTrace root trace
            (fun n => n.Set (String.mk (splitLastDot path.data).2) (.str value)) ∧
          nodeAt r.root trace =
            some (node.Set (String.mk (splitLastDot path.data).2) (.str value)) ∧
          (node.Set (String.mk (splitLastDot path.data).2) (.str value)).GetKey
            (String.mk (splitLastDot path.data).2) = some (.str value) ∧
          (∀ k, k ≠ String.mk (splitLastDot path.data).2 →
            (node.Set (String.mk (splitLastDot path.data).2) (.str value)).GetKey k =
              node.GetKey k) ∧
          r.written = some (Node.EncodePretty r.root)) := by
  intro root path value node trace lo eo hj heo
  have hcond : ¬ (eo ≠ none ∧ eo ≠ some GoErr.specificNode) := by
    rcases heo with he | he <;> simp [he]
  cases hg : node.GetKey (String.mk (splitLastDot path.data).2) with
  | none =>
    refine ⟨⟨some .couldNotSet, root, none⟩, ?_, ?_, fun _ => rfl, ?_⟩
    · unfold SetString
      simp only [hj]
      rw [if_neg hcond]
      simp only [hg]
    · simp [hg]
    · intro x hx
      exact absurd hx (by simp)
  | some x0 =>
    have hobjm : ∃ m, node = .obj m ∧
        mapGet m (String.mk (splitLastDot path.data).2) = some x0 := by
      cases node <;> simp [Node.GetKey] at hg <;> exact ⟨_, rfl, hg⟩
    obtain ⟨m, hnode, hm⟩ := hobjm
    refine ⟨⟨none,
      setAtTrace root trace
        (fun n => n.Set (String.mk (splitLastDot path.data).2) (.str value)),
      some (Node.EncodePretty (setAtTrace root trace
        (fun n => n.Set (String.mk (splitLastDot path.data).2) (.str value))))⟩,
      ?_, ?_, ?_, ?_⟩
    · unfold SetString
      simp only [hj]
      rw [if_neg hcond]
      simp only [hg]
    · simp [hg]
    · intro hnone
      exact absurd hnone (by simp)
    · intro x hx
      have hvalid := jsonpath_trace_valid ((splitLastDot path.data).1.length + 1) root
        (splitLastDot path.data).1 [] root node trace lo eo rfl hj heo
      have hat : nodeAt root trace = some node := by
        rcases hvalid with hnull | hv
        · rw [hnull] at hnode
          cases hnode
        · exact hv
      refine ⟨rfl, rfl, ?_, ?_, ?_, rfl⟩
      · exact nodeAt_setAtTrace trace root node _ hat
      · subst hnode
        simp only [Node.Set, Node.GetKey]
        exact mapGet_mapSet_self m _ _
      · intro k hk
        subst hnode
        simp only [Node.Set, Node.GetKey]
        exact mapGet_mapSet_other m _ k _ hk

/-- Witness for C1: overwrite an existing key and reject a missing key. -/
theorem C1_setString_replace_witness :
    (jsonpathT (.obj [("a", .str "old")]) (splitLastDot "a".data).1 [] =
      .ok (.obj [("a", .str "old")], [], [], some .specificNode)) ∧
    (∃ r, SetString (.obj [("a", .str "old")]) "a" "new" = .ok r ∧
      (r.err = some .couldNotSet ↔
        Node.GetKey (.obj [("a", .str "old")]) (String.mk (splitLastDot "a".data).2) = none) ∧
      (Node.GetKey (.obj [("a", .str "old")]) (String.mk (splitLastDot "a".data).2) = none →
        r = ⟨some .couldNotSet, .obj [("a", .str "old")], none⟩) ∧
      (∀ x, Node.GetKey (.obj [("a", .str "old")]) (String.mk (splitLastDot "a".data).2) =
          some x →
        r.err = none ∧
        r.root = setAtTrace (.obj [("a", .str "old")]) []
          (fun n => n.Set (String.mk (splitLastDot "a".data).2) (.str "new")) ∧
        nodeAt r.root [] =
          some ((Node.obj [("a", .str "old")]).Set
            (String.mk (splitLastDot "a".data).2) (.str "new")) ∧
        ((Node.obj [("a", .str "old")]).Set
            (String.mk (splitLastDot "a".data).2) (.str "new")).GetKey
          (String.mk (splitLastDot "a".data).2) = some (.str "new") ∧
        (∀ k, k ≠ String.mk (splitLastDot "a".data).2 →
          ((Node.obj [("a", .str "old")]).Set
              (String.mk (splitLastDot "a".data).2) (.str "new")).GetKey k =
            (Node.obj [("a", .str "old")]).GetKey k) ∧
        r.written = some (Node.EncodePretty r.root))) :=
  ⟨by decide,
   C1_setString_replace (.obj [("a", .str "old")]) "a" "new" (.obj [("a", .str "old")])
     [] [] (some .specificNode) (by decide) (Or.inr rfl)⟩

/-- Concrete document `\x7b"list":[\x7b"k":1\x7d]\x7d` of the C2 claim. -/
def docList : Node := .obj [("list", .arr [.obj [("k", .num "1")]])]

/-- Counterexample to claim C2: `AddJSON` at path `"list"` on
`\x7b"list":[\x7b"k":1\x7d]\x7d` does NOT succeed — the final segment `list` already
exists as a key of the resolved parent (the root), so the call is rejected
with the mutation-rejected error and neither the document nor the file is
touched. -/
theorem C2_counterexample :
    AddJSON docList "list" "\x7b\"k\":2\x7d" =
      .ok ⟨some .pathToSingleKey, docList, none⟩ := by decide

/-- Claim C2 (amended): `AddJSON` rejects any path whose final segment
already exists as a key — both `"list"` (the array's own key) and
`"list[0].k"` (an existing scalar) fail with the mutation-rejected error,
leaving the document unchanged; appending to the array requires a path that
resolves the array itself with a non-existing final segment, such as
`"list.x"`, which succeeds and yields `\x7b"list":[\x7b"k":1\x7d,\x7b"k":2\x7d]\x7d` (the
fragment appended at the end). -/
theorem C2_amended_addJSON :
    AddJSON docList "list" "\x7b\"k\":2\x7d" =
      .ok ⟨some .pathToSingleKey, docList, none⟩ ∧
    (AddJSON docList "list.x" "\x7b\"k\":2\x7d").map (fun r => (r.err, r.root)) =
      .ok (none, .obj [("list", .arr [.obj [("k", .num "1")], .obj [("k", .num "2")]])]) ∧
    AddJSON docList "list[0].k" "\x7b\"k\":2\x7d" =
      .ok ⟨some .pathToSingleKey, docList, none⟩ := by decide

/-! ### Decode/encode roundtrip (claim C9) -/

/-- Characters that may legally follow a complete JSON value inside a larger
document: end of input, a comma, or a closing bracket or brace. -/
def bdryB : List Char → Bool
  | [] => true
  | c :: _ => c = ',' || c = ']' || c = rbrace

theorem bdryB_head {c : Char} {r : List Char} (h : bdryB (c :: r) = true) :
    c = ',' ∨ c = ']' ∨ c = rbrace := by
  simp only [bdryB, Bool.or_eq_true, decide_eq_true_eq] at h
  tauto

theorem dropWhile_head_false {p : Char → Bool} :
    ∀ {l : List Char} {c : Char} {r : List Char}, l.dropWhile p = c :: r → p c = false := by
  intro l
  induction l with
  | nil => intro c r h; cases h
  | cons a t ih =>
    intro c r h
    by_cases ha : p a
    · rw [List.dropWhile_cons, if_pos ha] at h; exact ih h
    · rw [List.dropWhile_cons, if_neg ha] at h
      cases h
      exact Bool.eq_false_iff.mpr ha

theorem takeWhile_head {p : Char → Bool} {l : List Char} {c : Char} {r : List Char}
    (h : l.takeWhile p = c :: r) : p c = true := by
  cases l with
  | nil => cases h
  | cons a t =>
    rw [List.takeWhile_cons] at h
    by_cases ha : p a
    · rw [if_pos ha] at h; cases h; exact ha
    · rw [if_neg ha] at h; cases h

theorem allTakeWhile {p : Char → Bool} : ∀ l : List Char, (l.takeWhile p).all p = true := by
  intro l
  induction l with
  | nil => rfl
  | cons a t ih =>
    rw [List.takeWhile_cons]
    by_cases ha : p a
    · rw [if_pos ha]; simp [ha, ih]
    · rw [if_neg ha]; rfl

theorem bdry_takeWhile_dig {u : List Char} (h : bdryB u = true) :
    u.takeWhile isDig = [] := by
  cases u with
  | nil => rfl
  | cons c r =>
    rcases bdryB_head h with hc | hc | hc <;> subst hc <;>
      exact takeWhile_cons_false (by decide)

theorem bdry_dropWhile_dig {u : List Char} (h : bdryB u = true) :
    u.dropWhile isDig = u := by
  cases u with
  | nil => rfl
  | cons c r =>
    rcases bdryB_head h with hc | hc | hc <;> subst hc <;>
      exact dropWhile_cons_false (by decide)

theorem expSign_cons_sign {c : Char} (r : List Char) (h : c = '-' ∨ c = '+') :
    expSign (c :: r) = ([c], r) := by
  simp only [expSign]; rw [if_pos h]

theorem expSign_cons_other {c : Char} (r : List Char) (h : ¬(c = '-' ∨ c = '+')) :
    expSign (c :: r) = ([], c :: r) := by
  simp only [expSign]; rw [if_neg h]

theorem stripExpSign_eq : ∀ l : List Char, stripExpSign l = (expSign l).2 := by
  intro l
  cases l with
  | nil => rfl
  | cons c r =>
    simp only [stripExpSign, expSign]
    by_cases h : c = '-' ∨ c = '+'
    · rw [if_pos h, if_pos h]
    · rw [if_neg h, if_neg h]

theorem numExpTail_split {e : Char} {t : List Char} (h : numExpTail (e :: t) = true) :
    (e = 'e' ∨ e = 'E') ∧ (expSign t).2 ≠ [] ∧ (expSign t).2.all isDig = true := by
  simp only [numExpTail, Bool.and_eq_true, Bool.or_eq_true, decide_eq_true_eq,
    Bool.not_eq_true', List.isEmpty_eq_false, stripExpSign_eq] at h
  tauto

theorem fracTail_head_facts {r : List Char} (hfr : numFracTail r = true) :
    ∀ {c : Char} {t : List Char}, r = c :: t → isDig c = false ∧ c ≠ ',' ∧ c ≠ ']' ∧ c ≠ rbrace := by
  intro c t hr
  subst hr
  simp only [numFracTail] at hfr
  by_cases hd : c = '.'
  · subst hd; refine ⟨by decide, by decide, by decide, by decide⟩
  · rw [if_neg hd] at hfr
    rcases (numExpTail_split hfr).1 with he | he <;> subst he <;>
      exact ⟨by decide, by decide, by decide, by decide⟩

theorem fracTail_takeWhile_dig {er u : List Char} (hfr : numFracTail er = true)
    (hu : bdryB u = true) :
    (er ++ u).takeWhile isDig = [] ∧ (er ++ u).dropWhile isDig = er ++ u := by
  cases er with
  | nil =>
    simp only [List.nil_append]
    exact ⟨bdry_takeWhile_dig hu, bdry_dropWhile_dig hu⟩
  | cons c t =>
    have hd : isDig c = false := (fracTail_head_facts hfr rfl).1
    simp only [List.cons_append]
    exact ⟨takeWhile_cons_false hd, dropWhile_cons_false hd⟩

theorem numExpTail_fracTail {er : List Char} (h : numExpTail er = true) :
    numFracTail er = true := by
  cases er with
  | nil => rfl
  | cons e t =>
    have he := (numExpTail_split h).1
    have hd : ¬ e = '.' := by rcases he with he | he <;> subst he <;> decide
    simp only [numFracTail]
    rw [if_neg hd]
    exact h

theorem pTakeExp_rt : ∀ (er u : List Char), numExpTail er = true → bdryB u = true →
    pTakeExp (er ++ u) = some (er, u) := by
  intro er u her hu
  cases er with
  | nil =>
    cases u with
    | nil => rfl
    | cons c r =>
      rcases bdryB_head hu with hc | hc | hc <;> subst hc <;>
        (simp only [List.nil_append, pTakeExp]; rw [if_neg (by decide)])
  | cons e er' =>
    obtain ⟨he, hne, hall⟩ := numExpTail_split her
    simp only [List.cons_append, pTakeExp]
    rw [if_pos he]
    cases er' with
    | nil => simp only [expSign] at hne; exact absurd rfl hne
    | cons c rr =>
      by_cases hsg : c = '-' ∨ c = '+'
      · simp only [expSign_cons_sign rr hsg] at hne hall
        rw [List.cons_append, expSign_cons_sign (rr ++ u) hsg]
        simp only []
        rw [takeWhile_append_of_all hall, bdry_takeWhile_dig hu, List.append_nil,
            dropWhile_append_of_all hall, bdry_dropWhile_dig hu]
        rw [if_neg hne]
        rfl
      · simp only [expSign_cons_other rr hsg] at hne hall
        rw [List.cons_append, expSign_cons_other (rr ++ u) hsg]
        simp only []
        have ht : List.takeWhile isDig (c :: (rr ++ u)) = c :: rr := by
          rw [show c :: (rr ++ u) = (c :: rr) ++ u from rfl,
              takeWhile_append_of_all hall, bdry_takeWhile_dig hu, List.append_nil]
        have hd : List.dropWhile isDig (c :: (rr ++ u)) = u := by
          rw [show c :: (rr ++ u) = (c :: rr) ++ u from rfl,
              dropWhile_append_of_all hall, bdry_dropWhile_dig hu]
        rw [ht, hd, if_neg hne]
        rfl

theorem pTakeFrac_rt : ∀ (fr u : List Char), numFracTail fr = true → bdryB u = true →
    ∃ fp ep, fp ++ ep = fr ∧ pTakeFrac (fr ++ u) = some (fp, ep ++ u) ∧
      pTakeExp (ep ++ u) = some (ep, u) := by
  intro fr u hfr hu
  cases fr with
  | nil =>
    refine ⟨[], [], rfl, ?_, pTakeExp_rt [] u rfl hu⟩
    cases u with
    | nil => rfl
    | cons c r =>
      rcases bdryB_head hu with hc | hc | hc <;> subst hc <;>
        (simp only [List.nil_append, pTakeFrac]; rw [if_neg (by decide)])
  | cons c fr' =>
    simp only [numFracTail] at hfr
    by_cases hdot : c = '.'
    · rw [if_pos hdot] at hfr
      subst hdot
      simp only [Bool.and_eq_true, Bool.not_eq_true', List.isEmpty_eq_false] at hfr
      obtain ⟨hne, hexp⟩ := hfr
      refine ⟨'.' :: fr'.takeWhile isDig, fr'.dropWhile isDig, ?_, ?_, ?_⟩
      · simp [List.takeWhile_append_dropWhile]
      · have hsplit : fr' ++ u = fr'.takeWhile isDig ++ (fr'.dropWhile isDig ++ u) := by
          rw [← List.append_assoc, List.takeWhile_append_dropWhile]
        simp only [List.cons_append, pTakeFrac]
        rw [hsplit,
            takeWhile_append_of_all (allTakeWhile fr'),
            (fracTail_takeWhile_dig (numExpTail_fracTail hexp) hu).1, List.append_nil,
            dropWhile_append_of_all (allTakeWhile fr'),
            (fracTail_takeWhile_dig (numExpTail_fracTail hexp) hu).2]
        rw [if_neg hne, if_pos trivial]
      · exact pTakeExp_rt _ u hexp hu
    · rw [if_neg hdot] at hfr
      refine ⟨[], c :: fr', rfl, ?_, pTakeExp_rt _ u hfr hu⟩
      simp only [List.cons_append, pTakeFrac]
      rw [if_neg hdot]

theorem fracTail_headIsDig {r u : List Char} (hfr : numFracTail r = true)
    (hu : bdryB u = true) : headIsDig (r ++ u) = false := by
  cases r with
  | nil =>
    cases u with
    | nil => rfl
    | cons c t =>
      rcases bdryB_head hu with hc | hc | hc <;> subst hc <;>
        (simp only [List.nil_append, headIsDig]; decide)
  | cons c t =>
    have hd : isDig c = false := (fracTail_head_facts hfr rfl).1
    simp only [List.cons_append, headIsDig]
    exact hd

theorem numTokBody_rt : ∀ (t u : List Char), numTokBody t = true → bdryB u = true →
    ∃ ip fp ep, ip ++ (fp ++ ep) = t ∧
      pTakeInt (t ++ u) = some (ip, (fp ++ ep) ++ u) ∧
      pTakeFrac ((fp ++ ep) ++ u) = some (fp, ep ++ u) ∧
      pTakeExp (ep ++ u) = some (ep, u) := by
  intro t u ht hu
  cases t with
  | nil => exact absurd ht (by decide)
  | cons c r =>
    simp only [numTokBody] at ht
    by_cases h0 : c = '0'
    · rw [if_pos h0] at ht
      subst h0
      obtain ⟨fp, ep, hcat, hfrac, hexp⟩ := pTakeFrac_rt r u ht hu
      refine ⟨['0'], fp, ep, by rw [hcat]; rfl, ?_, ?_, hexp⟩
      · rw [List.cons_append]
        simp only [pTakeInt]
        rw [if_pos trivial, fracTail_headIsDig ht hu, hcat]
        rfl
      · rw [hcat]; exact hfrac
    · rw [if_neg h0] at ht
      simp only [Bool.and_eq_true] at ht
      obtain ⟨hdc, hfr⟩ := ht
      obtain ⟨fp, ep, hcat, hfrac, hexp⟩ := pTakeFrac_rt (r.dropWhile isDig) u hfr hu
      refine ⟨c :: r.takeWhile isDig, fp, ep, ?_, ?_, ?_, hexp⟩
      · rw [List.cons_append, hcat, List.takeWhile_append_dropWhile]
      · have hsplit : r ++ u = r.takeWhile isDig ++ (r.dropWhile isDig ++ u) := by
          rw [← List.append_assoc, List.takeWhile_append_dropWhile]
        rw [List.cons_append]
        simp only [pTakeInt]
        rw [if_neg h0, if_pos hdc, hsplit,
            takeWhile_append_of_all (allTakeWhile r),
            (fracTail_takeWhile_dig hfr hu).1, List.append_nil,
            dropWhile_append_of_all (allTakeWhile r),
            (fracTail_takeWhile_dig hfr hu).2, hcat]
      · rw [hcat]; exact hfrac

theorem pNum_rt : ∀ (t u : List Char), numTok t = true → bdryB u = true →
    pNum (t ++ u) = some (.num (String.mk t), u) := by
  intro t u ht hu
  cases t with
  | nil => exact absurd ht (by decide)
  | cons c r =>
    unfold numTok at ht
    by_cases hm : c = '-'
    · subst hm
      rw [show stripNeg ('-' :: r) = r from by simp [stripNeg]] at ht
      obtain ⟨ip, fp, ep, hcat, hInt, hFrac, hExp⟩ := numTokBody_rt r u ht hu
      rw [List.cons_append]
      simp only [pNum]
      rw [show numSign ('-' :: (r ++ u)) = (['-'], r ++ u) from by simp [numSign]]
      simp only [hInt, hFrac, hExp]
      rw [show (['-'] : List Char) ++ ip ++ fp ++ ep = '-' :: (ip ++ (fp ++ ep)) from by
        simp [List.append_assoc], hcat]
    · have hsn : stripNeg (c :: r) = c :: r := by
        simp only [stripNeg]; rw [if_neg hm]
      rw [hsn] at ht
      obtain ⟨ip, fp, ep, hcat, hInt, hFrac, hExp⟩ := numTokBody_rt (c :: r) u ht hu
      simp only [pNum]
      rw [show numSign ((c :: r) ++ u) = ([], (c :: r) ++ u) from by
        rw [List.cons_append]; simp only [numSign]; rw [if_neg hm]]
      simp only [hInt, hFrac, hExp]
      rw [show ([] : List Char) ++ ip ++ fp ++ ep = ip ++ (fp ++ ep) from by
        simp [List.append_assoc], hcat]

/-- The hex digit emitted by the encoder decodes back to its value. -/
theorem hexVal_hexDigitChar (d : Nat) (h : d < 16) : hexVal (hexDigitChar d) = some d := by
  interval_cases d <;> decide

/-- A scalar value of a `Char` is never in the surrogate range. -/
theorem char_valid_range (c : Char) :
    c.toNat < 0xD800 ∨ (0xE000 ≤ c.toNat ∧ c.toNat < 0x110000) := by
  have h := c.valid
  unfold UInt32.isValidChar Nat.isValidChar at h
  exact h

/-- One `\uXXXX` escape of a non-surrogate scalar below 0x10000 decodes back
to the original character, consuming one fuel unit. -/
theorem pStringBodyF_hexEsc {f : Nat} {tl u' cs' : List Char} {c : Char}
    (hIH : pStringBodyF f tl = some (cs', u'))
    (ht : c.toNat < 65536) :
    pStringBodyF (f + 1) ('\\' :: 'u' :: hex4 c.toNat ++ tl) = some (c :: cs', u') := by
  have hvalid := char_valid_range c
  have e1 := hexVal_hexDigitChar (c.toNat / 4096 % 16) (by omega)
  have e2 := hexVal_hexDigitChar (c.toNat / 256 % 16) (by omega)
  have e3 := hexVal_hexDigitChar (c.toNat / 16 % 16) (by omega)
  have e4 := hexVal_hexDigitChar (c.toNat % 16) (by omega)
  have hval : c.toNat / 4096 % 16 * 4096 + c.toNat / 256 % 16 * 256 +
      c.toNat / 16 % 16 * 16 + c.toNat % 16 = c.toNat := by omega
  simp only [hex4, List.cons_append, List.nil_append]
  simp only [pStringBodyF, e1, e2, e3, e4, if_true]
  rw [hval]
  rw [if_neg (show ¬(0xD800 ≤ c.toNat ∧ c.toNat < 0xDC00) by omega),
      if_neg (show ¬(0xDC00 ≤ c.toNat ∧ c.toNat < 0xE000) by omega), hIH]
  simp [Char.ofNat_toNat]

/-- One single-letter escape decodes back, consuming one fuel unit. -/
theorem pStringBodyF_escStep {f : Nat} {tl u' cs' : List Char} {e d : Char}
    (hIH : pStringBodyF f tl = some (cs', u'))
    (he : escDecode e = some d) (hu : e ≠ 'u') :
    pStringBodyF (f + 1) ('\\' :: e :: tl) = some (d :: cs', u') := by
  simp only [pStringBodyF]
  rw [if_neg hu, he, hIH]
  rfl

/-- One verbatim character decodes back, consuming one fuel unit. -/
theorem pStringBodyF_rawStep {f : Nat} {tl u' cs' : List Char} {c : Char}
    (hIH : pStringBodyF f tl = some (cs', u'))
    (h1 : ¬ c = '"') (h2 : ¬ c = '\\') (h3 : ¬ c.toNat < 32) :
    pStringBodyF (f + 1) (c :: tl) = some (c :: cs', u') := by
  simp only [pStringBodyF]
  rw [if_neg h1, if_neg h2, if_neg h3, hIH]
  rfl

/-- An escaped character is at least one character long. -/
theorem escChar_length_pos (c : Char) : 0 < (escChar c).length := by
  unfold escChar
  split_ifs <;> simp [hex4]

/-- Decoding inverts the string encoder: the escaped characters followed by
the closing quote and any rest decode to the original characters. -/
theorem pStringBodyF_rt : ∀ (cs u : List Char) (fuel : Nat),
    (cs.flatMap escChar).length + 1 ≤ fuel →
    pStringBodyF fuel (cs.flatMap escChar ++ '"' :: u) = some (cs, u) := by
  intro cs
  induction cs with
  | nil =>
    intro u fuel hf
    obtain ⟨f, rfl⟩ : ∃ f, fuel = f + 1 := ⟨fuel - 1, by omega⟩
    simp only [List.flatMap_nil, List.nil_append, pStringBodyF, if_true]
  | cons c cs' ih =>
    intro u fuel hf
    obtain ⟨f, rfl⟩ : ∃ f, fuel = f + 1 := ⟨fuel - 1, by omega⟩
    simp only [List.flatMap_cons, List.length_append] at hf
    have hf' : (cs'.flatMap escChar).length + 1 ≤ f := by
      have := escChar_length_pos c
      omega
    have hIH := ih u f hf'
    simp only [List.flatMap_cons, List.append_assoc]
    by_cases h1 : c = '"'
    · subst h1
      rw [show escChar '"' = ['\\', '"'] from rfl, List.cons_append, List.cons_append,
        List.nil_append]
      exact pStringBodyF_escStep hIH rfl (by decide)
    · by_cases h2 : c = '\\'
      · subst h2
        rw [show escChar '\\' = ['\\', '\\'] from rfl, List.cons_append, List.cons_append,
          List.nil_append]
        exact pStringBodyF_escStep hIH rfl (by decide)
      · by_cases h3 : c = '\n'
        · subst h3
          rw [show escChar '\n' = ['\\', 'n'] from rfl, List.cons_append, List.cons_append,
            List.nil_append]
          exact pStringBodyF_escStep hIH rfl (by decide)
        · by_cases h4 : c = '\r'
          · subst h4
            rw [show escChar '\r' = ['\\', 'r'] from rfl, List.cons_append, List.cons_append,
              List.nil_append]
            exact pStringBodyF_escStep hIH rfl (by decide)
          · by_cases h5 : c = '\t'
            · subst h5
              rw [show escChar '\t' = ['\\', 't'] from rfl, List.cons_append, List.cons_append,
                List.nil_append]
              exact pStringBodyF_escStep hIH rfl (by decide)
            · by_cases h6 : c.toNat < 32
              · rw [show escChar c = '\\' :: 'u' :: hex4 c.toNat from by
                  unfold escChar; rw [if_neg h1, if_neg h2, if_neg h3, if_neg h4, if_neg h5,
                    if_pos h6]]
                rw [List.cons_append, List.cons_append, ← List.append_assoc]
                exact pStringBodyF_hexEsc hIH (by omega)
              · by_cases h7 : c = '<' ∨ c = '>' ∨ c = '&'
                · rw [show escChar c = '\\' :: 'u' :: hex4 c.toNat from by
                    unfold escChar; rw [if_neg h1, if_neg h2, if_neg h3, if_neg h4, if_neg h5,
                      if_neg h6, if_pos h7]]
                  rw [List.cons_append, List.cons_append, ← List.append_assoc]
                  exact pStringBodyF_hexEsc hIH (by
                    rcases h7 with h | h | h <;> subst h <;> decide)
                · by_cases h8 : c.toNat = 8232 ∨ c.toNat = 8233
                  · rw [show escChar c = '\\' :: 'u' :: hex4 c.toNat from by
                      unfold escChar; rw [if_neg h1, if_neg h2, if_neg h3, if_neg h4, if_neg h5,
                        if_neg h6, if_neg h7, if_pos h8]]
                    rw [List.cons_append, List.cons_append, ← List.append_assoc]
                    exact pStringBodyF_hexEsc hIH (by omega)
                  · rw [show escChar c = [c] from by
                      unfold escChar; rw [if_neg h1, if_neg h2, if_neg h3, if_neg h4, if_neg h5,
                        if_neg h6, if_neg h7, if_neg h8]]
                    rw [List.cons_append, List.nil_append]
                    exact pStringBodyF_rawStep hIH h1 h2 h6

mutual
/-- Well-formedness of a document value: every number text satisfies the
scanner grammar and every object map is key-sorted.  Both invariants hold
for each value the decoder produces and are what the encoder relies on. -/
def nodeWF : Node → Bool
  | .num s => numTok s.data
  | .arr xs => listWF xs
  | .obj kvs => sortedKeys kvs && fieldsWF kvs
  | _ => true
/-- All array elements well-formed. -/
def listWF : List Node → Bool
  | [] => true
  | x :: r => nodeWF x && listWF r
/-- All object field values well-formed. -/
def fieldsWF : List (String × Node) → Bool
  | [] => true
  | (_, v) :: r => nodeWF v && fieldsWF r
end

theorem listWF_append_one : ∀ (acc : List Node) (v : Node),
    listWF (acc ++ [v]) = (listWF acc && nodeWF v) := by
  intro acc v
  induction acc with
  | nil => simp [listWF]
  | cons x r ih =>
    simp only [List.cons_append, listWF, List.append_eq, ih]
    rw [Bool.and_assoc]

theorem fieldsWF_mapSet : ∀ (m : List (String × Node)) (k : String) (v : Node),
    fieldsWF m = true → nodeWF v = true → fieldsWF (mapSet m k v) = true := by
  intro m k v hm hv
  induction m with
  | nil => simp [mapSet, fieldsWF, hv]
  | cons e r ih =>
    obtain ⟨k₀, w⟩ := e
    simp only [fieldsWF, Bool.and_eq_true] at hm
    simp only [mapSet]
    by_cases h1 : strLt k k₀
    · rw [if_pos h1]
      simp [fieldsWF, hv, hm.1, hm.2]
    · rw [if_neg h1]
      by_cases h2 : k = k₀
      · rw [if_pos h2]
        simp [fieldsWF, hv, hm.2]
      · rw [if_neg h2]
        simp [fieldsWF, hm.1, ih hm.2]

theorem fracTail_self {x : List Char} (h : numFracTail x = true) :
    x.takeWhile isDig = [] ∧ x.dropWhile isDig = x := by
  have h2 := fracTail_takeWhile_dig (u := []) h rfl
  simpa using h2

theorem numExpTail_cons (e : Char) (t : List Char) :
    numExpTail (e :: t) =
      ((e = 'e' || e = 'E') && (!(stripExpSign t).isEmpty && (stripExpSign t).all isDig)) := rfl

theorem expSign_cat : ∀ l : List Char, (expSign l).1 ++ (expSign l).2 = l := by
  intro l
  cases l with
  | nil => rfl
  | cons c r =>
    by_cases h : c = '-' ∨ c = '+'
    · rw [expSign_cons_sign r h]; rfl
    · rw [expSign_cons_other r h]; rfl

theorem pTakeExp_sound {l ep r : List Char} (h : pTakeExp l = some (ep, r)) :
    numExpTail ep = true ∧ l = ep ++ r := by
  cases l with
  | nil =>
    simp only [pTakeExp] at h
    cases h
    exact ⟨rfl, rfl⟩
  | cons c r' =>
    simp only [pTakeExp] at h
    by_cases he : c = 'e' ∨ c = 'E'
    · rw [if_pos he] at h
      by_cases hne : (expSign r').2.takeWhile isDig = []
      · rw [if_pos hne] at h; cases h
      · rw [if_neg hne] at h
        cases h
        constructor
        · rw [List.cons_append, numExpTail_cons]
          simp only [Bool.and_eq_true, Bool.or_eq_true, decide_eq_true_eq,
            Bool.not_eq_true', List.isEmpty_eq_false, stripExpSign_eq]
          refine ⟨he, ?_⟩
          cases hr' : r' with
          | nil => rw [hr'] at hne; exact absurd rfl hne
          | cons c₂ rr =>
            rw [hr'] at hne
            by_cases hsg : c₂ = '-' ∨ c₂ = '+'
            · rw [expSign_cons_sign rr hsg] at hne ⊢
              simp only []
              rw [show ([c₂] : List Char) ++ rr.takeWhile isDig = c₂ :: rr.takeWhile isDig
                from rfl, expSign_cons_sign _ hsg]
              exact ⟨hne, allTakeWhile rr⟩
            · rw [expSign_cons_other rr hsg] at hne ⊢
              simp only [List.nil_append]
              cases hds : (c₂ :: rr).takeWhile isDig with
              | nil => rw [hds] at hne; exact absurd rfl hne
              | cons d ds' =>
                have hd : isDig d = true := takeWhile_head hds
                have hdsg : ¬(d = '-' ∨ d = '+') := by
                  rintro (rfl | rfl) <;> exact absurd hd (by decide)
                rw [expSign_cons_other ds' hdsg]
                refine ⟨by simp, ?_⟩
                rw [← hds]
                exact allTakeWhile _
        · have hcat := expSign_cat r'
          conv_lhs => rw [show c :: r' = c :: ((expSign r').1 ++ (expSign r').2) from by
            rw [hcat]]
          rw [show (expSign r').2 =
              (expSign r').2.takeWhile isDig ++ (expSign r').2.dropWhile isDig from
            (List.takeWhile_append_dropWhile isDig (expSign r').2).symm]
          simp [List.append_assoc]
    · rw [if_neg he] at h
      cases h
      exact ⟨rfl, rfl⟩

theorem frac_exp_sound {l fp r1 ep r : List Char}
    (hf : pTakeFrac l = some (fp, r1)) (he : pTakeExp r1 = some (ep, r)) :
    numFracTail (fp ++ ep) = true ∧ l = (fp ++ ep) ++ r := by
  obtain ⟨hexp, hcat⟩ := pTakeExp_sound he
  cases l with
  | nil =>
    simp only [pTakeFrac] at hf
    cases hf
    simp only [pTakeExp] at he
    cases he
    exact ⟨rfl, rfl⟩
  | cons c r' =>
    simp only [pTakeFrac] at hf
    by_cases hdot : c = '.'
    · rw [if_pos hdot] at hf
      subst hdot
      by_cases hne : r'.takeWhile isDig = []
      · rw [if_pos hne] at hf; cases hf
      · rw [if_neg hne] at hf
        cases hf
        constructor
        · simp only [List.cons_append, numFracTail, if_true]
          rw [takeWhile_append_of_all (allTakeWhile r'),
              (fracTail_self (numExpTail_fracTail hexp)).1, List.append_nil,
              dropWhile_append_of_all (allTakeWhile r'),
              (fracTail_self (numExpTail_fracTail hexp)).2]
          cases htw : r'.takeWhile isDig with
          | nil => exact absurd htw hne
          | cons d ds => simp [hexp]
        · simp only [List.cons_append, List.append_assoc]
          rw [← hcat, List.takeWhile_append_dropWhile]
    · rw [if_neg hdot] at hf
      cases hf
      refine ⟨?_, by simpa using hcat⟩
      simp only [List.nil_append]
      exact numExpTail_fracTail hexp

theorem numTokBody_cons (c : Char) (r : List Char) :
    numTokBody (c :: r) =
      if c = '0' then numFracTail r else isDig c && numFracTail (r.dropWhile isDig) := rfl

theorem pTakeInt_sound {l ip r1 : List Char} (h : pTakeInt l = some (ip, r1)) :
    l = ip ++ r1 ∧ ∃ c ds, ip = c :: ds ∧
      ((c = '0' ∧ ds = []) ∨ (isDig c = true ∧ ¬ c = '0' ∧ ds.all isDig = true)) := by
  cases l with
  | nil => simp [pTakeInt] at h
  | cons c r =>
    simp only [pTakeInt] at h
    by_cases h0 : c = '0'
    · rw [if_pos h0] at h
      by_cases hd : headIsDig r = true
      · rw [if_pos hd] at h; cases h
      · rw [if_neg hd] at h
        cases h
        subst h0
        exact ⟨rfl, '0', [], rfl, Or.inl ⟨rfl, rfl⟩⟩
    · rw [if_neg h0] at h
      by_cases hdc : isDig c = true
      · rw [if_pos hdc] at h
        cases h
        refine ⟨?_, c, r.takeWhile isDig, rfl, Or.inr ⟨hdc, h0, allTakeWhile r⟩⟩
        rw [List.cons_append, List.takeWhile_append_dropWhile]
      · rw [if_neg hdc] at h; cases h

theorem numTokBody_of_parts {ip fp ep : List Char}
    (hshape : ∃ c ds, ip = c :: ds ∧
      ((c = '0' ∧ ds = []) ∨ (isDig c = true ∧ ¬ c = '0' ∧ ds.all isDig = true)))
    (hft : numFracTail (fp ++ ep) = true) :
    numTokBody (ip ++ (fp ++ ep)) = true := by
  obtain ⟨c, ds, rfl, hcase⟩ := hshape
  rw [List.cons_append]
  rcases hcase with ⟨h0, rfl⟩ | ⟨hdc, h0, hall⟩
  · subst h0
    simp only [List.nil_append, numTokBody_cons, if_true]
    exact hft
  · rw [numTokBody_cons, if_neg h0, dropWhile_append_of_all hall, (fracTail_self hft).2]
    simp [hdc, hft]

theorem numTok_neg (x : List Char) : numTok ('-' :: x) = numTokBody x := by
  unfold numTok
  simp [stripNeg]

theorem numTok_noSign {ip fp ep : List Char}
    (hshape : ∃ c ds, ip = c :: ds ∧
      ((c = '0' ∧ ds = []) ∨ (isDig c = true ∧ ¬ c = '0' ∧ ds.all isDig = true)))
    (hft : numFracTail (fp ++ ep) = true) :
    numTok (ip ++ (fp ++ ep)) = true := by
  obtain ⟨c, ds, hip, hcase⟩ := hshape
  have hc0 : ¬ c = '-' := by
    rcases hcase with ⟨rfl, _⟩ | ⟨hdc, _, _⟩
    · decide
    · intro he; subst he; exact absurd hdc (by decide)
  unfold numTok
  rw [hip, List.cons_append]
  rw [show stripNeg (c :: (ds ++ (fp ++ ep))) = c :: (ds ++ (fp ++ ep)) from by
    simp only [stripNeg]; rw [if_neg hc0]]
  rw [← List.cons_append, ← hip]
  exact numTokBody_of_parts ⟨c, ds, hip, hcase⟩ hft

theorem pNum_sound {s : List Char} {v : Node} {r : List Char}
    (h : pNum s = some (v, r)) :
    ∃ t, v = Node.num (String.mk t) ∧ numTok t = true ∧ s = t ++ r := by
  unfold pNum at h
  cases hInt : pTakeInt (numSign s).2 with
  | none => rw [hInt] at h; cases h
  | some p1 =>
    obtain ⟨ip, r1⟩ := p1
    simp only [hInt] at h
    cases hFrac : pTakeFrac r1 with
    | none => rw [hFrac] at h; cases h
    | some p2 =>
      obtain ⟨fp, r2⟩ := p2
      simp only [hFrac] at h
      cases hExp : pTakeExp r2 with
      | none => rw [hExp] at h; cases h
      | some p3 =>
        obtain ⟨ep, r3⟩ := p3
        simp only [hExp] at h
        cases h
        obtain ⟨hft, hr1⟩ := frac_exp_sound hFrac hExp
        obtain ⟨hl, hshape⟩ := pTakeInt_sound hInt
        refine ⟨(numSign s).1 ++ ip ++ fp ++ ep, rfl, ?_, ?_⟩
        · cases s with
          | nil => simp [pTakeInt, numSign] at hInt
          | cons c r' =>
            by_cases hm : c = '-'
            · subst hm
              rw [show numSign ('-' :: r') = (['-'], r') from by simp [numSign]]
              rw [show (['-'] : List Char) ++ ip ++ fp ++ ep = '-' :: (ip ++ (fp ++ ep)) from by
                simp [List.append_assoc]]
              rw [numTok_neg]
              exact numTokBody_of_parts hshape hft
            · rw [show numSign (c :: r') = ([], c :: r') from by
                simp only [numSign]; rw [if_neg hm]]
              rw [show ([] : List Char) ++ ip ++ fp ++ ep = ip ++ (fp ++ ep) from by
                simp [List.append_assoc]]
              exact numTok_noSign hshape hft
        · cases s with
          | nil => simp [pTakeInt, numSign] at hInt
          | cons c r' =>
            by_cases hm : c = '-'
            · subst hm
              rw [show numSign ('-' :: r') = (['-'], r') from by simp [numSign]] at hl ⊢
              simp only [] at hl
              rw [hr1] at hl
              simp [hl, List.append_assoc]
            · rw [show numSign (c :: r') = ([], c :: r') from by
                simp only [numSign]; rw [if_neg hm]] at hl ⊢
              simp only [] at hl
              rw [hr1] at hl
              simp [hl, List.append_assoc]

theorem pLit_sound {l : List Char} {v : Node} {r : List Char}
    (h : pLit l = some (v, r)) : nodeWF v = true := by
  unfold pLit at h
  split at h <;> (try cases h) <;> rfl

theorem parse_WF : ∀ fuel : Nat,
    (∀ s v r, pValF fuel s = some (v, r) → nodeWF v = true) ∧
    (∀ s v r, pElems0F fuel s = some (v, r) → nodeWF v = true) ∧
    (∀ s acc v r, pElemsF fuel s acc = some (v, r) → listWF acc = true → nodeWF v = true) ∧
    (∀ s v r, pMembers0F fuel s = some (v, r) → nodeWF v = true) ∧
    (∀ s acc v r, pMembersF fuel s acc = some (v, r) →
      sortedKeys acc = true → fieldsWF acc = true → nodeWF v = true) := by
  intro fuel
  induction fuel with
  | zero =>
    refine ⟨?_, ?_, ?_, ?_, ?_⟩
    · intro s v r h; rw [show pValF 0 s = none from rfl] at h; cases h
    · intro s v r h; rw [show pElems0F 0 s = none from rfl] at h; cases h
    · intro s acc v r h _; rw [show pElemsF 0 s acc = none from rfl] at h; cases h
    · intro s v r h; rw [show pMembers0F 0 s = none from rfl] at h; cases h
    · intro s acc v r h _ _; rw [show pMembersF 0 s acc = none from rfl] at h; cases h
  | succ f ih =>
    obtain ⟨ihV, ihE0, ihE, ihM0, ihM⟩ := ih
    refine ⟨?_, ?_, ?_, ?_, ?_⟩
    · intro s v r h
      simp only [pValF] at h
      cases hsk : skipWS s with
      | nil => rw [hsk] at h; cases h
      | cons c rest =>
        simp only [hsk] at h
        by_cases h1 : c = lbrace
        · rw [if_pos h1] at h; exact ihM0 rest v r h
        · rw [if_neg h1] at h
          by_cases h2 : c = '['
          · rw [if_pos h2] at h; exact ihE0 rest v r h
          · rw [if_neg h2] at h
            by_cases h3 : c = '"'
            · rw [if_pos h3] at h
              cases hsb : pStringBody rest with
              | none => rw [hsb] at h; cases h
              | some p =>
                simp only [hsb, Option.map] at h
                cases h
                rfl
            · rw [if_neg h3] at h
              by_cases h4 : c = 'n' ∨ c = 't' ∨ c = 'f'
              · rw [if_pos h4] at h; exact pLit_sound h
              · rw [if_neg h4] at h
                by_cases h5 : c = '-' ∨ isDig c
                · rw [if_pos h5] at h
                  obtain ⟨t, rfl, hnt, _⟩ := pNum_sound h
                  simpa [nodeWF] using hnt
                · rw [if_neg h5] at h; cases h
    · intro s v r h
      simp only [pElems0F] at h
      split at h
      · cases h; rfl
      · exact ihE s [] v r h rfl
    · intro s acc v r h hacc
      simp only [pElemsF] at h
      cases hv : pValF f s with
      | none => rw [hv] at h; cases h
      | some p =>
        obtain ⟨v₀, r₀⟩ := p
        simp only [hv] at h
        have hwf₀ := ihV s v₀ r₀ hv
        split at h
        · exact ihE _ _ v r h (by rw [listWF_append_one]; simp [hacc, hwf₀])
        · cases h
          show listWF (acc ++ [v₀]) = true
          rw [listWF_append_one]
          simp [hacc, hwf₀]
        · cases h
    · intro s v r h
      simp only [pMembers0F] at h
      split at h
      · split at h
        · cases h; rfl
        · exact ihM s [] v r h rfl rfl
      · exact ihM s [] v r h rfl rfl
    · intro s acc v r h hsort hfw
      simp only [pMembersF] at h
      split at h
      · cases hsb : pStringBody _ with
        | none => rw [hsb] at h; cases h
        | some p =>
          obtain ⟨kcs, r2⟩ := p
          simp only [hsb] at h
          split at h
          · cases hv : pValF f _ with
            | none => rw [hv] at h; cases h
            | some q =>
              obtain ⟨v₀, r4⟩ := q
              simp only [hv] at h
              have hwf₀ := ihV _ _ _ hv
              have hsort' : sortedKeys (mapSet acc (String.mk kcs) v₀) = true :=
                sortedKeys_iff.mpr (SortedK_mapSet _ _ (sortedKeys_iff.mp hsort))
              have hfw' : fieldsWF (mapSet acc (String.mk kcs) v₀) = true :=
                fieldsWF_mapSet _ _ _ hfw hwf₀
              split at h
              · exact ihM _ _ v r h hsort' hfw'
              · split at h
                · cases h
                  show (sortedKeys (mapSet acc (String.mk kcs) v₀) &&
                    fieldsWF (mapSet acc (String.mk kcs) v₀)) = true
                  simp [hsort', hfw']
                · cases h
              · cases h
          · cases h
      · cases h

theorem skipWS_cons_not (c : Char) (l : List Char) (h : isWS c = false) :
    skipWS (c :: l) = c :: l := by
  simp [skipWS, h]

theorem numTok_head {t : List Char} (h : numTok t = true) :
    ∃ c r, t = c :: r ∧ (c = '-' ∨ isDig c = true) := by
  cases t with
  | nil => exact absurd h (by decide)
  | cons c r =>
    refine ⟨c, r, rfl, ?_⟩
    by_cases hm : c = '-'
    · exact Or.inl hm
    · right
      unfold numTok at h
      rw [show stripNeg (c :: r) = c :: r from by
        simp only [stripNeg]; rw [if_neg hm]] at h
      rw [numTokBody_cons] at h
      by_cases h0 : c = '0'
      · subst h0; decide
      · rw [if_neg h0] at h
        simp only [Bool.and_eq_true] at h
        exact h.1

theorem charNe_of_dig {c : Char} (h : isDig c = true) :
    isWS c = false ∧ ¬ c = ']' ∧ ¬ c = ',' ∧ ¬ c = rbrace ∧ ¬ c = lbrace ∧ ¬ c = '[' ∧
      ¬ c = '"' ∧ ¬(c = 'n' ∨ c = 't' ∨ c = 'f') := by
  have hws : isWS c = false := by
    cases hws : isWS c
    · rfl
    · exfalso
      simp only [isWS, Bool.or_eq_true, decide_eq_true_eq] at hws
      rcases hws with ((rfl | rfl) | rfl) | rfl <;> exact absurd h (by decide)
  refine ⟨hws, ?_, ?_, ?_, ?_, ?_, ?_, ?_⟩
  · rintro rfl; exact absurd h (by decide)
  · rintro rfl; exact absurd h (by decide)
  · rintro rfl; exact absurd h (by decide)
  · rintro rfl; exact absurd h (by decide)
  · rintro rfl; exact absurd h (by decide)
  · rintro rfl; exact absurd h (by decide)
  · rintro (rfl | rfl | rfl) <;> exact absurd h (by decide)

theorem encC_head {v : Node} (hwf : nodeWF v = true) :
    ∃ c cs, encC v = c :: cs ∧ isWS c = false ∧ ¬ c = ']' ∧ ¬ c = ',' ∧ ¬ c = rbrace := by
  cases v with
  | null => exact ⟨'n', _, rfl, by decide, by decide, by decide, by decide⟩
  | bool b =>
    cases b
    · exact ⟨'f', _, rfl, by decide, by decide, by decide, by decide⟩
    · exact ⟨'t', _, rfl, by decide, by decide, by decide, by decide⟩
  | str s =>
    exact ⟨'"', s.data.flatMap escChar ++ ['"'],
      by rw [show encC (.str s) = ('"' :: s.data.flatMap escChar) ++ ['"'] from rfl,
        List.cons_append], by decide, by decide, by decide, by decide⟩
  | num s =>
    have hnt : numTok s.data = true := by simpa [nodeWF] using hwf
    obtain ⟨c, r, hd, hc⟩ := numTok_head hnt
    refine ⟨c, r, by simp only [encC]; rw [hd], ?_, ?_, ?_, ?_⟩
    · rcases hc with rfl | hdig
      · decide
      · exact (charNe_of_dig hdig).1
    · rcases hc with rfl | hdig
      · decide
      · exact (charNe_of_dig hdig).2.1
    · rcases hc with rfl | hdig
      · decide
      · exact (charNe_of_dig hdig).2.2.1
    · rcases hc with rfl | hdig
      · decide
      · exact (charNe_of_dig hdig).2.2.2.1
  | arr xs =>
    exact ⟨'[', encElems xs ++ [']'],
      by rw [show encC (.arr xs) = ('[' :: encElems xs) ++ [']'] from rfl,
        List.cons_append], by decide, by decide, by decide, by decide⟩
  | obj kvs =>
    exact ⟨lbrace, encFields kvs ++ [rbrace],
      by rw [show encC (.obj kvs) = (lbrace :: encFields kvs) ++ [rbrace] from rfl,
        List.cons_append], by decide, by decide, by decide, by decide⟩

mutual
/-- Structural size of a value, driving the roundtrip induction. -/
def sizeN : Node → Nat
  | .arr xs => sizeL xs + 1
  | .obj kvs => sizeF kvs + 1
  | _ => 1
/-- Added sizes of a list of values. -/
def sizeL : List Node → Nat
  | [] => 0
  | x :: r => sizeN x + sizeL r
/-- Added sizes of the values of an object map. -/
def sizeF : List (String × Node) → Nat
  | [] => 0
  | (_, v) :: r => sizeN v + sizeF r
end

theorem sizeN_pos : ∀ v : Node, 1 ≤ sizeN v := by
  intro v
  cases v <;> simp [sizeN]

theorem encElems_head {x : Node} (xs : List Node) (hwf : nodeWF x = true) :
    ∃ c cs, encElems (x :: xs) = c :: cs ∧ isWS c = false ∧ ¬ c = ']' := by
  obtain ⟨c, cs', hx, hws, hrb, _, _⟩ := encC_head hwf
  cases xs with
  | nil => exact ⟨c, cs', by rw [show encElems [x] = encC x from rfl, hx], hws, hrb⟩
  | cons y ys =>
    exact ⟨c, cs' ++ ',' :: encElems (y :: ys),
      by rw [show encElems (x :: y :: ys) = encC x ++ ',' :: encElems (y :: ys) from rfl,
        hx, List.cons_append], hws, hrb⟩

theorem encFields_head (k : String) (v : Node) (kvs : List (String × Node)) :
    ∃ cs, encFields ((k, v) :: kvs) = '"' :: cs := by
  cases kvs with
  | nil =>
    refine ⟨k.data.flatMap escChar ++ '"' :: ':' :: encC v, ?_⟩
    rw [show encFields [(k, v)] = encString k ++ ':' :: encC v from rfl,
      show encString k = ('"' :: k.data.flatMap escChar) ++ ['"'] from rfl]
    simp [List.cons_append, List.append_assoc]
  | cons e rest =>
    refine ⟨k.data.flatMap escChar ++ '"' :: ':' :: (encC v ++ ',' :: encFields (e :: rest)), ?_⟩
    rw [show encFields ((k, v) :: e :: rest)
        = encString k ++ ':' :: encC v ++ ',' :: encFields (e :: rest) from rfl,
      show encString k = ('"' :: k.data.flatMap escChar) ++ ['"'] from rfl]
    simp [List.cons_append, List.append_assoc]

theorem pStringBody_rt (s : String) (rest : List Char) :
    pStringBody (s.data.flatMap escChar ++ '"' :: rest) = some (s.data, rest) := by
  unfold pStringBody
  exact pStringBodyF_rt s.data rest _ (by simp [List.length_append])

theorem pElems0F_cons {f : Nat} {c : Char} {l : List Char} (hws : isWS c = false)
    (hne : ¬ c = ']') : pElems0F (f + 1) (c :: l) = pElemsF f (c :: l) [] := by
  simp only [pElems0F, skipWS_cons_not c _ hws]
  split
  · rename_i r heq
    injection heq with h1 h2
    exact absurd h1 hne
  · rfl

theorem pMembers0F_cons {f : Nat} {c : Char} {l : List Char} (hws : isWS c = false)
    (hne : ¬ c = rbrace) : pMembers0F (f + 1) (c :: l) = pMembersF f (c :: l) [] := by
  simp only [pMembers0F, skipWS_cons_not c _ hws]
  rw [if_neg hne]

theorem roundtrip_all : ∀ n : Nat,
    (∀ v u fuel, sizeN v ≤ n → nodeWF v = true → bdryB u = true →
      3 * (encC v).length + 3 * u.length + 1 ≤ fuel →
      pValF fuel (encC v ++ u) = some (v, u)) ∧
    (∀ xs acc u fuel, sizeL xs ≤ n → xs ≠ [] → listWF xs = true →
      3 * (encElems xs).length + 3 * u.length + 5 ≤ fuel →
      pElemsF fuel (encElems xs ++ ']' :: u) acc = some (.arr (acc ++ xs), u)) ∧
    (∀ kvs acc u fuel, sizeF kvs ≤ n → kvs ≠ [] → fieldsWF kvs = true →
      SortedK (acc ++ kvs) →
      3 * (encFields kvs).length + 3 * u.length + 5 ≤ fuel →
      pMembersF fuel (encFields kvs ++ rbrace :: u) acc = some (.obj (acc ++ kvs), u)) := by
  intro n
  induction n using Nat.strong_induction_on with
  | _ n ih =>
  have HV : ∀ v u fuel, sizeN v ≤ n → nodeWF v = true → bdryB u = true →
      3 * (encC v).length + 3 * u.length + 1 ≤ fuel →
      pValF fuel (encC v ++ u) = some (v, u) := by
    intro v u fuel hsz hwf hu hfuel
    obtain ⟨f, rfl⟩ : ∃ f, fuel = f + 1 := ⟨fuel - 1, by omega⟩
    cases v with
    | null => rfl
    | bool b => cases b <;> rfl
    | num s =>
      have hnt : numTok s.data = true := by simpa [nodeWF] using hwf
      obtain ⟨c, r, hd, hc⟩ := numTok_head hnt
      have hws : isWS c = false := by
        rcases hc with rfl | hdig
        · decide
        · exact (charNe_of_dig hdig).1
      have h1 : ¬ c = lbrace := by
        rcases hc with rfl | hdig
        · decide
        · exact (charNe_of_dig hdig).2.2.2.2.1
      have h2 : ¬ c = '[' := by
        rcases hc with rfl | hdig
        · decide
        · exact (charNe_of_dig hdig).2.2.2.2.2.1
      have h3 : ¬ c = '"' := by
        rcases hc with rfl | hdig
        · decide
        · exact (charNe_of_dig hdig).2.2.2.2.2.2.1
      have h4 : ¬ (c = 'n' ∨ c = 't' ∨ c = 'f') := by
        rcases hc with rfl | hdig
        · decide
        · exact (charNe_of_dig hdig).2.2.2.2.2.2.2
      rw [show encC (.num s) = s.data from rfl, hd, List.cons_append]
      simp only [pValF, skipWS_cons_not c _ hws]
      rw [if_neg h1, if_neg h2, if_neg h3, if_neg h4, if_pos hc,
        ← List.cons_append, ← hd]
      exact pNum_rt s.data u hnt hu
    | str s =>
      have henc : encC (.str s) ++ u = '"' :: (s.data.flatMap escChar ++ '"' :: u) := by
        rw [show encC (.str s) = ('"' :: s.data.flatMap escChar) ++ ['"'] from rfl]
        simp [List.cons_append, List.append_assoc]
      rw [henc]
      simp only [pValF, skipWS_cons_not '"' _ (by decide)]
      rw [if_pos trivial, pStringBody_rt s u]
      rfl
    | arr xs =>
      cases xs with
      | nil =>
        obtain ⟨g, rfl⟩ : ∃ g, f = g + 1 := ⟨f - 1, by
          have hlen : (encC (.arr [])).length = 2 := rfl
          omega⟩
        rfl
      | cons x xs' =>
        have hwfl : nodeWF x = true ∧ listWF xs' = true := by
          have : listWF (x :: xs') = true := by simpa [nodeWF] using hwf
          simpa [listWF, Bool.and_eq_true] using this
        obtain ⟨g, rfl⟩ : ∃ g, f = g + 1 := ⟨f - 1, by
          have h1 : 1 ≤ (encC (.arr (x :: xs'))).length := by
            obtain ⟨c, cs, hx, _⟩ := encC_head hwf
            rw [hx]; simp
          omega⟩
        have henc : encC (.arr (x :: xs')) ++ u
            = '[' :: (encElems (x :: xs') ++ ']' :: u) := by
          rw [show encC (.arr (x :: xs')) = ('[' :: encElems (x :: xs')) ++ [']'] from rfl]
          simp [List.cons_append, List.append_assoc]
        rw [henc]
        simp only [pValF, skipWS_cons_not '[' _ (by decide)]
        rw [if_pos trivial]
        obtain ⟨c, cs, hel, hcws, hcrb⟩ := encElems_head xs' hwfl.1
        rw [show encElems (x :: xs') ++ ']' :: u = c :: (cs ++ ']' :: u) from by
            rw [hel, List.cons_append],
          pElems0F_cons hcws hcrb, ← List.cons_append, ← hel]
        have hn1 : 1 ≤ n := le_trans (sizeN_pos _) hsz
        have hszl : sizeL (x :: xs') ≤ n - 1 := by
          have : sizeN (.arr (x :: xs')) = sizeL (x :: xs') + 1 := rfl
          omega
        have hEn := (ih (n - 1) (by omega)).2.1 (x :: xs') [] u g hszl (by simp)
          (by simp [listWF, hwfl.1, hwfl.2])
          (by
            have hL : (encC (.arr (x :: xs'))).length
                = (encElems (x :: xs')).length + 2 := by
              rw [show encC (.arr (x :: xs')) = ('[' :: encElems (x :: xs')) ++ [']'] from rfl]
              simp
            omega)
        simpa using hEn
    | obj kvs =>
      cases kvs with
      | nil =>
        obtain ⟨g, rfl⟩ : ∃ g, f = g + 1 := ⟨f - 1, by
          have hlen : (encC (.obj [])).length = 2 := rfl
          omega⟩
        rfl
      | cons e kvs' =>
        obtain ⟨k, v0⟩ := e
        have hwfo : sortedKeys ((k, v0) :: kvs') = true ∧ fieldsWF ((k, v0) :: kvs') = true := by
          have : (sortedKeys ((k, v0) :: kvs') && fieldsWF ((k, v0) :: kvs')) = true := by
            simpa [nodeWF] using hwf
          simpa [Bool.and_eq_true] using this
        obtain ⟨g, rfl⟩ : ∃ g, f = g + 1 := ⟨f - 1, by
          have h1 : 1 ≤ (encC (.obj ((k, v0) :: kvs'))).length := by
            obtain ⟨c, cs, hx, _⟩ := encC_head hwf
            rw [hx]; simp
          omega⟩
        have henc : encC (.obj ((k, v0) :: kvs')) ++ u
            = lbrace :: (encFields ((k, v0) :: kvs') ++ rbrace :: u) := by
          rw [show encC (.obj ((k, v0) :: kvs'))
              = (lbrace :: encFields ((k, v0) :: kvs')) ++ [rbrace] from rfl]
          simp [List.cons_append, List.append_assoc]
        rw [henc]
        simp only [pValF, skipWS_cons_not lbrace _ (by decide)]
        rw [if_pos trivial]
        obtain ⟨cs, hef⟩ := encFields_head k v0 kvs'
        rw [show encFields ((k, v0) :: kvs') ++ rbrace :: u
            = '"' :: (cs ++ rbrace :: u) from by rw [hef, List.cons_append],
          pMembers0F_cons (by decide) (by decide), ← List.cons_append, ← hef]
        have hn1 : 1 ≤ n := le_trans (sizeN_pos _) hsz
        have hszf : sizeF ((k, v0) :: kvs') ≤ n - 1 := by
          have : sizeN (.obj ((k, v0) :: kvs')) = sizeF ((k, v0) :: kvs') + 1 := rfl
          omega
        have hMn := (ih (n - 1) (by omega)).2.2 ((k, v0) :: kvs') [] u g hszf (by simp)
          hwfo.2 (by simpa [SortedK] using sortedKeys_iff.mp hwfo.1)
          (by
            have hL : (encC (.obj ((k, v0) :: kvs'))).length
                = (encFields ((k, v0) :: kvs')).length + 2 := by
              rw [show encC (.obj ((k, v0) :: kvs'))
                  = (lbrace :: encFields ((k, v0) :: kvs')) ++ [rbrace] from rfl]
              simp
            omega)
        simpa using hMn
  have HE : ∀ xs acc u fuel, sizeL xs ≤ n → xs ≠ [] → listWF xs = true →
      3 * (encElems xs).length + 3 * u.length + 5 ≤ fuel →
      pElemsF fuel (encElems xs ++ ']' :: u) acc = some (.arr (acc ++ xs), u) := by
    intro xs
    induction xs with
    | nil => intro acc u fuel _ hne _ _; exact absurd rfl hne
    | cons x xs' ihxs =>
      intro acc u fuel hsz hne hwf hfuel
      obtain ⟨f, rfl⟩ : ∃ f, fuel = f + 1 := ⟨fuel - 1, by omega⟩
      simp only [listWF, Bool.and_eq_true] at hwf
      have hszx : sizeN x ≤ n := by
        have : sizeL (x :: xs') = sizeN x + sizeL xs' := rfl
        omega
      simp only [pElemsF]
      cases xs' with
      | nil =>
        rw [show encElems [x] = encC x from rfl]
        have hv := HV x (']' :: u) f hszx hwf.1 rfl (by
          have hL : (encElems [x]).length = (encC x).length := by
            rw [show encElems [x] = encC x from rfl]
          simp only [List.length_cons]
          omega)
        simp only [hv]
        rfl
      | cons y ys =>
        have henc : encElems (x :: y :: ys) ++ ']' :: u
            = encC x ++ (',' :: (encElems (y :: ys) ++ ']' :: u)) := by
          rw [show encElems (x :: y :: ys) = encC x ++ ',' :: encElems (y :: ys) from rfl]
          simp [List.append_assoc]
        have hL : (encElems (x :: y :: ys)).length
            = (encC x).length + 1 + (encElems (y :: ys)).length := by
          rw [show encElems (x :: y :: ys) = encC x ++ ',' :: encElems (y :: ys) from rfl]
          simp
          omega
        rw [henc]
        have hv := HV x (',' :: (encElems (y :: ys) ++ ']' :: u)) f hszx hwf.1 rfl (by
          simp only [List.length_cons, List.length_append]
          omega)
        simp only [hv]
        have hx1 : 1 ≤ (encC x).length := by
          obtain ⟨c0, cs0, hx0, _⟩ := encC_head hwf.1
          rw [hx0]; simp
        have hrec := ihxs (acc ++ [x]) u f (by
            have h1 : sizeL (x :: y :: ys) = sizeN x + sizeL (y :: ys) := rfl
            have h2 : 1 ≤ sizeN x := sizeN_pos x
            omega)
          (by simp) hwf.2 (by omega)
        show pElemsF f (encElems (y :: ys) ++ ']' :: u) (acc ++ [x])
          = some (.arr (acc ++ x :: y :: ys), u)
        rw [hrec]
        simp
  have HM : ∀ kvs acc u fuel, sizeF kvs ≤ n → kvs ≠ [] → fieldsWF kvs = true →
      SortedK (acc ++ kvs) →
      3 * (encFields kvs).length + 3 * u.length + 5 ≤ fuel →
      pMembersF fuel (encFields kvs ++ rbrace :: u) acc = some (.obj (acc ++ kvs), u) := by
    intro kvs
    induction kvs with
    | nil => intro acc u fuel _ hne _ _ _; exact absurd rfl hne
    | cons e kvs' ihkvs =>
      obtain ⟨k, v0⟩ := e
      intro acc u fuel hsz hne hwf hsort hfuel
      obtain ⟨f, rfl⟩ : ∃ f, fuel = f + 1 := ⟨fuel - 1, by omega⟩
      simp only [fieldsWF, Bool.and_eq_true] at hwf
      have hszv : sizeN v0 ≤ n := by
        have : sizeF ((k, v0) :: kvs') = sizeN v0 + sizeF kvs' := rfl
        omega
      have hcross : ∀ e2 ∈ acc, strLt e2.1 k = true := by
        intro e2 he2
        have hp := (List.pairwise_append.mp hsort).2.2 e2 he2 (k, v0) (by simp)
        exact hp
      have hmap : mapSet acc k v0 = acc ++ [(k, v0)] := mapSet_append hcross
      simp only [pMembersF]
      cases kvs' with
      | nil =>
        have henc : encFields [(k, v0)] ++ rbrace :: u
            = '"' :: (k.data.flatMap escChar ++ '"' :: (':' :: (encC v0 ++ rbrace :: u))) := by
          rw [show encFields [(k, v0)] = encString k ++ ':' :: encC v0 from rfl,
            show encString k = ('"' :: k.data.flatMap escChar) ++ ['"'] from rfl]
          simp [List.cons_append, List.append_assoc]
        have hLL : (encFields [(k, v0)]).length
            = (k.data.flatMap escChar).length + 3 + (encC v0).length := by
          rw [show encFields [(k, v0)] = encString k ++ ':' :: encC v0 from rfl,
            show encString k = ('"' :: k.data.flatMap escChar) ++ ['"'] from rfl]
          simp
          omega
        rw [henc]
        simp only [skipWS_cons_not '"' _ (by decide)]
        simp only [pStringBody_rt k (':' :: (encC v0 ++ rbrace :: u))]
        simp only [skipWS_cons_not ':' _ (by decide)]
        have hv := HV v0 (rbrace :: u) f hszv hwf.1 rfl (by
          simp only [List.length_cons]
          omega)
        simp only [hv]
        show (match skipWS (rbrace :: u) with
          | ',' :: r5 => pMembersF f r5 (mapSet acc (String.mk k.data) v0)
          | c :: r5 =>
            if c = rbrace then some (.obj (mapSet acc (String.mk k.data) v0), r5) else none
          | [] => none) = some (.obj (acc ++ [(k, v0)]), u)
        rw [skipWS_cons_not rbrace u (by decide)]
        rw [show (String.mk k.data) = k from rfl]
        simp only [hmap]
        rfl
      | cons e2 rest =>
        have henc : encFields ((k, v0) :: e2 :: rest) ++ rbrace :: u
            = '"' :: (k.data.flatMap escChar ++ '"' :: (':' :: (encC v0
              ++ ',' :: (encFields (e2 :: rest) ++ rbrace :: u)))) := by
          rw [show encFields ((k, v0) :: e2 :: rest)
              = encString k ++ ':' :: encC v0 ++ ',' :: encFields (e2 :: rest) from rfl,
            show encString k = ('"' :: k.data.flatMap escChar) ++ ['"'] from rfl]
          simp [List.cons_append, List.append_assoc]
        have hLL : (encFields ((k, v0) :: e2 :: rest)).length
            = (k.data.flatMap escChar).length + 4 + (encC v0).length
              + (encFields (e2 :: rest)).length := by
          rw [show encFields ((k, v0) :: e2 :: rest)
              = encString k ++ ':' :: encC v0 ++ ',' :: encFields (e2 :: rest) from rfl,
            show encString k = ('"' :: k.data.flatMap escChar) ++ ['"'] from rfl]
          simp
          omega
        rw [henc]
        simp only [skipWS_cons_not '"' _ (by decide)]
        simp only [pStringBody_rt k (':' :: (encC v0 ++ ',' :: (encFields (e2 :: rest) ++ rbrace :: u)))]
        simp only [skipWS_cons_not ':' _ (by decide)]
        have hv := HV v0 (',' :: (encFields (e2 :: rest) ++ rbrace :: u)) f hszv hwf.1 rfl (by
          simp only [List.length_cons, List.length_append]
          omega)
        simp only [hv]
        have hv01 : 1 ≤ (encC v0).length := by
          obtain ⟨c0, cs0, hx0, _⟩ := encC_head hwf.1
          rw [hx0]; simp
        have hrec := ihkvs (acc ++ [(k, v0)]) u f (by
            have h1 : sizeF ((k, v0) :: e2 :: rest) = sizeN v0 + sizeF (e2 :: rest) := rfl
            have h2 : 1 ≤ sizeN v0 := sizeN_pos v0
            omega)
          (by simp) hwf.2 (by rw [List.append_assoc]; simpa using hsort) (by omega)
        show pMembersF f (encFields (e2 :: rest) ++ rbrace :: u)
          (mapSet acc (String.mk k.data) v0) = some (.obj (acc ++ (k, v0) :: e2 :: rest), u)
        rw [show (String.mk k.data) = k from rfl, hmap, hrec]
        simp
  exact ⟨HV, HE, HM⟩

/-- C9: parse-then-encode roundtrip.  For every byte sequence accepted by
`New` (the platform decoder with `UseNumber`), re-serializing the resulting
root value with `Encode` yields a document that decodes to exactly the same
value: the same key set with equal values for objects (keys stored sorted,
so key order is not preserved textually) and the same element sequence for
arrays; whitespace is normalized away. -/
theorem C9_roundtrip : ∀ (bytes : List Char) (v : Node),
    New bytes = .ok v → New (Node.Encode v) = .ok v := by
  intro bytes v h
  unfold New at h ⊢
  cases hp : pVal bytes with
  | none => rw [hp] at h; cases h
  | some p =>
    obtain ⟨v', rest⟩ := p
    simp only [hp] at h
    cases h
    unfold pVal at hp
    have hwf : nodeWF v = true := (parse_WF _).1 bytes v rest hp
    have hrt := (roundtrip_all (sizeN v)).1 v [] (3 * (encC v).length + 1)
      (le_refl _) hwf rfl (by simp)
    rw [List.append_nil] at hrt
    unfold pVal
    rw [show Node.Encode v = encC v from rfl]
    simp only [hrt]

/-- Witness for C9 at a concrete document: `{"b":1,"a":[true,null]}` parses,
and the re-encoding of its value parses back to the same value. -/
theorem C9_roundtrip_witness :
    New "\x7b\"b\":1,\"a\":[true,null]\x7d".data
      = .ok (.obj [("a", .arr [.bool true, .null]), ("b", .num "1")]) ∧
    New (Node.Encode (.obj [("a", .arr [.bool true, .null]), ("b", .num "1")]))
      = .ok (.obj [("a", .arr [.bool true, .null]), ("b", .num "1")]) :=
  ⟨by decide, C9_roundtrip ("\x7b\"b\":1,\"a\":[true,null]\x7d".data) _ (by decide)⟩
